import Mathlib

/-!
# Verification of the iva-backend crawl-and-extract pipeline

Shallow embedding of the pure control and data logic of:
* `src/lib/extractContact.js` (phone normalization, address DOM heuristic),
* `src/utils/locationUtils.js` (location disambiguation),
* `src/lib/pickBusinessName.js` (name scoring),
* `src/unnamed/part_007` (profile reconciler `applyImportedBusinessData`
  and the opening-hours precedence computation),
* the Playwright crawl loop (`crawlWebsiteWithPlaywright`).

JavaScript strings become Lean `String`, JS `null`/`undefined` become
`Option`, JS numbers used as integers become `Int`/`Nat`.  Regex scans
whose *results* feed the logic under verification (address matches,
discovered links, page render outcomes) are passed in as explicit inputs,
mirroring the module boundaries of the source; all decision logic, string
normalization and literal-substring matching is embedded directly.
-/

namespace Iva

/-! ## Basic string utilities (JS semantics) -/

/-- `leadsWith needle hay`: `needle` begins `hay` (char-list version of
`String.startsWith`). -/
def leadsWith : List Char → List Char → Bool
  | [], _ => true
  | _ :: _, [] => false
  | a :: as, b :: bs => a == b && leadsWith as bs

/-- `hasSub needle hay`: `needle` occurs contiguously inside `hay`
(JS `hay.includes(needle)`). -/
def hasSub : List Char → List Char → Bool
  | needle, [] => leadsWith needle []
  | needle, c :: t => leadsWith needle (c :: t) || hasSub needle t

/-- JS `hay.includes(needle)`. -/
def strContains (hay needle : String) : Bool :=
  hasSub needle.toList hay.toList

/-- Whitespace characters recognised by JS `\s` / `String.prototype.trim`
(the ones that occur in this code base's data). -/
def jsIsWs (c : Char) : Bool :=
  c == ' ' || c == '\t' || c == '\n' || c == '\r' ||
  c == '\x0b' || c == '\x0c' || c == ' '

/-- Trim JS whitespace from both ends of a char list. -/
def trimChars (l : List Char) : List Char :=
  ((l.dropWhile jsIsWs).reverse.dropWhile jsIsWs).reverse

/-- JS `String.prototype.trim`. -/
def jsTrim (s : String) : String :=
  String.mk (trimChars s.toList)

/-- Lower-case one character the way JS `toLowerCase` does on the
characters appearing in this code base (ASCII plus Czech capitals). -/
def jsLowerChar (c : Char) : Char :=
  if 'A' ≤ c ∧ c ≤ 'Z' then Char.ofNat (c.toNat + 32)
  else match c with
    | 'Á' => 'á' | 'Č' => 'č' | 'Ď' => 'ď' | 'É' => 'é' | 'Ě' => 'ě'
    | 'Í' => 'í' | 'Ň' => 'ň' | 'Ó' => 'ó' | 'Ř' => 'ř' | 'Š' => 'š'
    | 'Ť' => 'ť' | 'Ú' => 'ú' | 'Ů' => 'ů' | 'Ý' => 'ý' | 'Ž' => 'ž'
    | _ => c

/-- JS `toLowerCase`. -/
def jsToLower (s : String) : String := String.mk (s.toList.map jsLowerChar)

/-- One step of `normalize('NFD').replace(/[̀-ͯ]/g, '')`:
replace an accented Latin letter by its base letter (table covering the
Czech alphabet used throughout the source). -/
def stripDiacriticChar (c : Char) : Char :=
  match c with
  | 'á' => 'a' | 'č' => 'c' | 'ď' => 'd' | 'é' => 'e' | 'ě' => 'e'
  | 'í' => 'i' | 'ň' => 'n' | 'ó' => 'o' | 'ř' => 'r' | 'š' => 's'
  | 'ť' => 't' | 'ú' => 'u' | 'ů' => 'u' | 'ý' => 'y' | 'ž' => 'z'
  | 'Á' => 'A' | 'Č' => 'C' | 'Ď' => 'D' | 'É' => 'E' | 'Ě' => 'E'
  | 'Í' => 'I' | 'Ň' => 'N' | 'Ó' => 'O' | 'Ř' => 'R' | 'Š' => 'S'
  | 'Ť' => 'T' | 'Ú' => 'U' | 'Ů' => 'U' | 'Ý' => 'Y' | 'Ž' => 'Z'
  | _ => c

/-- JS `s.normalize('NFD').replace(/[̀-ͯ]/g, '')`. -/
def stripDiacritics (s : String) : String :=
  String.mk (s.toList.map stripDiacriticChar)

/-- Does the string contain an ASCII digit (JS `/\d/.test(s)`)? -/
def hasDigit (s : String) : Bool := s.toList.any Char.isDigit

/-! ## `src/lib/extractContact.js` — phone normalization -/

/-- `normalizePhoneToE164` from `src/lib/extractContact.js` (lines
94–123): strip all characters but digits and `+`, then classify by
country-code shape.  Returns `none` for an invalid format. -/
def normalizePhoneToE164 (phone : String) : Option String :=
  let cleaned : List Char := phone.toList.filter (fun c => c.isDigit || c == '+')
  if leadsWith "+".toList cleaned then
    if leadsWith "+420".toList cleaned ∧ cleaned.length = 13 then some (String.mk cleaned)
    else if 10 ≤ cleaned.length ∧ cleaned.length ≤ 15 then some (String.mk cleaned)
    else none
  else if leadsWith "420".toList cleaned then
    let c2 := '+' :: cleaned
    if c2.length = 13 then some (String.mk c2) else none
  else if cleaned.length = 9 then
    some (String.mk ("+420".toList ++ cleaned))
  else none

/-! ## `src/lib/extractContact.js` — address DOM heuristic -/

/-- `normalizeForMatch` from `src/lib/extractContact.js` (lines 77–82):
lowercase and strip diacritics. -/
def normalizeForMatch (s : String) : String :=
  stripDiacritics (jsToLower s)

/-- `containsAny` from `src/lib/extractContact.js` (lines 84–87). -/
def containsAny (haystack : String) (needles : List String) : Bool :=
  let h := normalizeForMatch haystack
  needles.any (fun n => strContains h (normalizeForMatch n))

/-- `LEGAL_ADDRESS_KEYWORDS` (lines 56–75): registered-office / billing
markers that penalize an address candidate. -/
def LEGAL_ADDRESS_KEYWORDS : List String :=
  ["ičo", "ico", "dič", "dic", "sídlo", "sidlo", "fakturační", "fakturacni",
   "společnost", "spolecnost", "zapsaná", "zapsana", "obchodní rejstřík",
   "obchodni rejstrik", "rejstříku", "rejstriku", "s.r.o", "a.s"]

/-- One regex hit of the CZ address pattern in `extractAddressFromDom`:
the matched address text and its ±140-character context window. -/
structure AddrMatch where
  address : String
  context : String
deriving DecidableEq, Repr

/-- A scored address candidate (`candidates.push(\x7b address, score, ... \x7d)`). -/
structure AddrCandidate where
  address : String
  score : Int
deriving DecidableEq, Repr

/-- The candidate scoring of `extractAddressFromDom` (lines 331–342):
+35 for a nearby location label, +10 for a maps link, +10 for a known
city, −60 for legal/billing context. -/
def scoreAddressContext (context : String) : Int :=
  let contextNorm := normalizeForMatch context
  let s1 : Int := if containsAny context
      ["adresa", "provozovna", "salon", "pobočka", "kde nas najdete", "kde nás najdete"]
    then 35 else 0
  let s2 : Int := if strContains contextNorm "mapy" || strContains contextNorm "google"
      || strContains contextNorm "maps" then 10 else 0
  let s3 : Int := if strContains contextNorm "praha" || strContains contextNorm "brno"
    then 10 else 0
  let s4 : Int := if containsAny context LEGAL_ADDRESS_KEYWORDS then -60 else 0
  s1 + s2 + s3 + s4

/-- Build the candidate list from the regex scan results (lines 320–345;
the regex scan itself, with its 10–160-character length filter and
12-candidate cap, is the `ms` input). -/
def mkAddrCandidates (ms : List AddrMatch) : List AddrCandidate :=
  ms.map (fun m => ⟨m.address, scoreAddressContext m.context⟩)

/-- Stable insertion step for sorting candidates by score, descending
(JS `candidates.sort((a, b) => b.score - a.score)`, a stable sort). -/
def insertDescByScore (c : AddrCandidate) : List AddrCandidate → List AddrCandidate
  | [] => [c]
  | d :: ds => if d.score ≤ c.score then c :: d :: ds else d :: insertDescByScore c ds

/-- Stable descending sort by score. -/
def sortByScoreDesc (l : List AddrCandidate) : List AddrCandidate :=
  l.foldr insertDescByScore []

/-- `extractAddressFromDom` (lines 299–371), given the stripped page text
`textOnly` and the regex address matches `ms`: sorts candidates by score,
returns the multi-city summary when Praha and Brno co-occur without a
strong candidate, rejects negative-scored candidates, and accepts a
candidate from score 15 up. -/
def extractAddressFromDom (textOnly : String) (ms : List AddrMatch) : Option String :=
  let normalizedText := normalizeForMatch textOnly
  let hasPraha := strContains normalizedText "praha"
  let hasBrno := strContains normalizedText "brno"
  let multiLocation := hasPraha && hasBrno
  let sorted := sortByScoreDesc (mkAddrCandidates ms)
  let picked := sorted.head?
  let strongEnough := match picked with
    | some p => decide (30 ≤ p.score)
    | none => false
  if multiLocation && !strongEnough then some "Praha a Brno"
  else match picked with
    | some p =>
        if p.score < 0 then none
        else if 15 ≤ p.score then some p.address
        else none
    | none => none

/-! ## `src/utils/locationUtils.js` — location disambiguation -/

/-- Collapse every whitespace run to a single space
(JS `str.replace(/\s+/g, ' ')`).  The flag records whether the previous
character was whitespace (i.e. we are inside a run). -/
def collapseWsAux : List Char → Bool → List Char
  | [], _ => []
  | c :: t, prev =>
      if jsIsWs c then
        if prev then collapseWsAux t true else ' ' :: collapseWsAux t true
      else c :: collapseWsAux t false

/-- `normalizeAddress` from `src/utils/locationUtils.js` (lines 213–215). -/
def normalizeAddress (s : String) : String :=
  jsTrim (String.mk (collapseWsAux s.toList false))

/-- `CITY_KEYWORDS` (lines 157–171). -/
def CITY_KEYWORDS : List String :=
  ["praha", "brno", "ostrava", "plzeň", "olomouc", "liberec", "hradec",
   "pardubice", "zlin", "ústí", "usti", "české budějovice", "ceske budejovice"]

/-- `JUNK_TOKENS` (lines 173–181). -/
def JUNK_TOKENS : List String :=
  ["kč", "min", "%", "šampon", "masky", "používáme jen profesionální značky",
   "pouzivame jen profesionalni znacky"]

/-- `containsCityKeyword` (lines 186–192): first city keyword contained in
the lowercased string, if any. -/
def containsCityKeyword (s : String) : Option String :=
  let lower := jsToLower s
  CITY_KEYWORDS.find? (fun city => strContains lower city)

/-- `isProbablyAddress` (lines 197–208): digit + city keyword + no junk
token + trimmed length between 8 and 120. -/
def isProbablyAddress (s : String) : Bool :=
  let lower := jsToLower s
  if !hasDigit s then false
  else if (containsCityKeyword s).isNone then false
  else if JUNK_TOKENS.any (fun junk => strContains lower junk) then false
  else
    let trimmed := jsTrim s
    !(trimmed.length < 8 || 120 < trimmed.length)

/-- `inferredLocationName` (lines 220–234). -/
def inferredLocationName (address : String) : String :=
  let lower := jsToLower address
  if strContains lower "praha" then "Praha"
  else if strContains lower "brno" then "Brno"
  else if strContains lower "ostrava" then "Ostrava"
  else if strContains lower "plzeň" || strContains lower "plzen" then "Plzeň"
  else if strContains lower "olomouc" then "Olomouc"
  else if strContains lower "liberec" then "Liberec"
  else if strContains lower "hradec" then "Hradec Králové"
  else if strContains lower "pardubice" then "Pardubice"
  else if strContains lower "zlin" then "Zlín"
  else if strContains lower "usti" || strContains lower "ústí" then "Ústí nad Labem"
  else if strContains lower "ceske budejovice" || strContains lower "české budějovice"
    then "České Budějovice"
  else "Lokace"

/-- A raw location candidate before filtering (step 3 of
`detectLocationsFromChunks`); fields may be JS `null`. -/
structure RawLoc where
  name : Option String
  address : Option String
  booking_providers : List String
deriving DecidableEq, Repr

/-- A finished `LocationRecord`. -/
structure LocationRecord where
  name : Option String
  address : String
  booking_providers : List String
deriving DecidableEq, Repr

/-- A stored KB chunk as seen by the location detector (text plus the
`kb_pages` url/title of its page). -/
structure Chunk where
  text : String
  url : String
  title : String
deriving DecidableEq, Repr

/-- Case-insensitive "starts with" on char lists. -/
def ciLeads (pat s : List Char) : Bool :=
  leadsWith (pat.map jsLowerChar) (s.map jsLowerChar)

/-- At the given position, the first of the six city alternatives of the
regex `/(Praha|Brno|Ostrava|Plzeň|Liberec|Olomouc)/i` that matches;
returns the matched text as written in the input. -/
def cityAt (s : List Char) : Option (List Char) :=
  ["Praha", "Brno", "Ostrava", "Plzeň", "Liberec", "Olomouc"].findSome?
    (fun c => if ciLeads c.toList s then some (s.take c.toList.length) else none)

/-- Leftmost match of the city regex (JS `String.prototype.match`
semantics: earliest position wins, then alternation order). -/
def leftmostCityChars : List Char → Option (List Char)
  | [] => none
  | c :: t =>
      match cityAt (c :: t) with
      | some r => some r
      | none => leftmostCityChars t

/-- `address.match(/(Praha|Brno|Ostrava|Plzeň|Liberec|Olomouc)/i)`. -/
def leftmostCityMatch (s : String) : Option String :=
  (leftmostCityChars s.toList).map String.mk

/-- The name matched to an address in the multi-address branch of step 3
(lines 364–376): first location name contained in the address, else the
city regex match, else `Lokace ${i+1}`. -/
def nameForAddress (locationNames : List String) (address : String) (i : Nat) : String :=
  match locationNames.find? (fun ln => strContains (jsToLower address) (jsToLower ln)) with
  | some ln => ln
  | none =>
      match leftmostCityMatch address with
      | some c => c
      | none => "Lokace " ++ toString (i + 1)

/-- JS `x || null` on an optional string. -/
def orNull (v : Option String) : Option String :=
  match v with
  | some s => if s = "" then none else some s
  | none => none

/-- Step 3 of `detectLocationsFromChunks` (lines 357–421): build raw
location objects from the extracted addresses and location names
(the outputs of the regex scans `extractAddresses` /
`extractLocationNames`, passed in as inputs). -/
def buildRawLocations (addresses locationNames : List String)
    (profileAddr : Option String) : List RawLoc :=
  if 1 < addresses.length then
    addresses.enum.map
      (fun p => ⟨some (nameForAddress locationNames p.2 p.1), some p.2, []⟩)
  else
    match addresses with
    | [address] =>
        if 1 < locationNames.length then
          locationNames.map (fun ln => ⟨some ln, some address, []⟩)
        else
          match locationNames.head? with
          | some ln => [⟨some ln, some address, []⟩]
          | none => [⟨none, some address, []⟩]
    | _ =>
        if !locationNames.isEmpty then
          locationNames.map (fun ln => ⟨some ln, orNull profileAddr, []⟩)
        else
          match orNull profileAddr with
          | some pa => [⟨none, some pa, []⟩]
          | none => []

/-- `normalizeAndFilterLocations` (lines 239–267): keep only candidates
whose normalized address passes `isProbablyAddress`, dedupe by lowercased
address, infer a name when missing or generic `Lokace...`. -/
def normalizeAndFilterGo : List RawLoc → List String → List LocationRecord
  | [], _ => []
  | loc :: rest, seen =>
      match orNull loc.address with
      | none => normalizeAndFilterGo rest seen
      | some a =>
          let addrNorm := normalizeAddress a
          if !isProbablyAddress addrNorm then normalizeAndFilterGo rest seen
          else
            let key := jsToLower addrNorm
            if seen.contains key then normalizeAndFilterGo rest seen
            else
              let name :=
                match loc.name with
                | some n =>
                    if n = "" || leadsWith "lokace".toList (jsToLower n).toList
                    then inferredLocationName addrNorm else n
                | none => inferredLocationName addrNorm
              ⟨some name, addrNorm, loc.booking_providers⟩ ::
                normalizeAndFilterGo rest (key :: seen)

/-- `normalizeAndFilterLocations` entry point. -/
def normalizeAndFilterLocations (raws : List RawLoc) : List LocationRecord :=
  normalizeAndFilterGo raws []

/-- `seedBaseLocationFromProfile` (lines 272–290): the profile address
becomes a base location whenever it has a city keyword and a digit, even
when it fails the strict `isProbablyAddress` filter. -/
def seedBaseLocationFromProfile (profileAddr : Option String)
    (providers : List String) : Option LocationRecord :=
  match orNull profileAddr with
  | none => none
  | some a =>
      let addrNorm := normalizeAddress a
      if isProbablyAddress addrNorm then
        some ⟨some (inferredLocationName addrNorm), addrNorm, providers⟩
      else if (containsCityKeyword addrNorm).isSome ∧ hasDigit addrNorm then
        some ⟨some (inferredLocationName addrNorm), addrNorm, providers⟩
      else none

/-- City key of a candidate (`containsCityKeyword(loc.address) || 'unknown'`). -/
def cityOf (loc : LocationRecord) : String :=
  (containsCityKeyword loc.address).getD "unknown"

/-- Strict "better" order of the per-city sort in `selectCanonicalPerCity`
(lines 318–331): prefer `/`-qualified street numbers, then shorter
addresses, then lexicographic (modelling `localeCompare` as code-point
order). -/
def locBetter (a b : LocationRecord) : Bool :=
  let aS := strContains a.address "/"
  let bS := strContains b.address "/"
  if aS ≠ bS then aS
  else if a.address.length ≠ b.address.length then
    decide (a.address.length < b.address.length)
  else decide (a.address < b.address)

/-- `sorted[0]`: the first minimal element of the comparator order
(stable sort head). -/
def bestOf : List LocationRecord → Option LocationRecord
  | [] => none
  | x :: xs => some (xs.foldl (fun acc y => if locBetter y acc then y else acc) x)

/-- Key list in first-occurrence order (JS `Map` iteration order);
`seen` carries the keys already emitted. -/
def dedupKeepFirstGo : List String → List String → List String
  | [], _ => []
  | x :: xs, seen =>
      if seen.contains x then dedupKeepFirstGo xs seen
      else x :: dedupKeepFirstGo xs (x :: seen)

/-- Key list in first-occurrence order. -/
def dedupKeepFirst (l : List String) : List String :=
  dedupKeepFirstGo l []

/-- `selectCanonicalPerCity` (lines 295–339): the profile-derived base
location always comes first and suppresses other candidates of its city;
the remaining cities each contribute their best candidate; hard cap 5. -/
def selectCanonicalPerCity (base : Option LocationRecord)
    (candidates : List LocationRecord) : List LocationRecord :=
  let cities := dedupKeepFirst (candidates.map cityOf)
  let skip : List String :=
    match base with
    | some b => [cityOf b]
    | none => []
  let rest := (cities.filter (fun c => c != "unknown" && !(skip.contains c))).filterMap
    (fun c => bestOf (candidates.filter (fun l => cityOf l = c)))
  let results :=
    match base with
    | some b => b :: rest
    | none => rest
  results.take 5

/-- The `url -> city` entries collected by
`mapBookingProvidersToLocations` (lines 113–128), in `Map` insertion
order with key-overwrite semantics. -/
def assocSet (entries : List (String × String)) (k v : String) : List (String × String) :=
  if entries.any (fun e => e.1 == k) then
    entries.map (fun e => if e.1 == k then (k, v) else e)
  else entries ++ [(k, v)]

/-- City classification of one chunk url (lines 118–127). -/
def urlCityOf (url : String) : Option String :=
  if strContains url "/praha" || strContains url "/praha-" then some "praha"
  else if strContains url "/brno" || strContains url "/brno-" then some "brno"
  else if strContains url "/ostrava" || strContains url "/ostrava-" then some "ostrava"
  else if strContains url "/plzen" || strContains url "/plzeň" || strContains url "/plzen-"
    then some "plzeň"
  else none

/-- Build the url→city map from the chunks. -/
def urlCityEntries (chunks : List Chunk) : List (String × String) :=
  chunks.foldl
    (fun entries ch =>
      let url := jsToLower ch.url
      if url = "" then entries
      else
        match urlCityOf url with
        | some city => assocSet entries url city
        | none => entries)
    []

/-- Append each provider not already present (lines 143–147). -/
def addProviders (provs cur : List String) : List String :=
  provs.foldl (fun acc p => if acc.contains p then acc else acc ++ [p]) cur

/-- Attach providers to one location when some url entry's city occurs in
the location's name or address (lines 131–151). -/
def augmentLocation (entries : List (String × String)) (provs : List String)
    (loc : LocationRecord) : LocationRecord :=
  let nameL := jsToLower (loc.name.getD "")
  let addrL := jsToLower loc.address
  match entries.find? (fun e => strContains nameL e.2 || strContains addrL e.2) with
  | some _ => { loc with booking_providers := addProviders provs loc.booking_providers }
  | none => loc

/-- `mapBookingProvidersToLocations` (lines 106–154). -/
def mapBookingProvidersToLocations (locs : List LocationRecord)
    (chunks : List Chunk) (provs : List String) : List LocationRecord :=
  if provs.isEmpty || locs.isEmpty then locs
  else locs.map (augmentLocation (urlCityEntries chunks) provs)

/-- `detectLocationsFromChunks` (lines 344–452), with the regex scan
results `addresses` (`extractAddresses`) and `locationNames`
(`extractLocationNames`) supplied as inputs. -/
def detectLocationsFromChunks (addresses locationNames : List String)
    (chunks : List Chunk) (profileAddr : Option String)
    (providers : List String) : List LocationRecord :=
  if chunks.isEmpty then []
  else
    let rawLocations := buildRawLocations addresses locationNames profileAddr
    let cleaned := normalizeAndFilterLocations rawLocations
    let baseLocation := seedBaseLocationFromProfile profileAddr providers
    let finalLocations := selectCanonicalPerCity baseLocation cleaned
    let withProviders := mapBookingProvidersToLocations finalLocations chunks providers
    if withProviders.isEmpty then
      match orNull profileAddr with
      | some pa => [⟨none, pa, providers⟩]
      | none => []
    else withProviders

/-! ## `src/lib/pickBusinessName.js` — name scoring -/

/-- Dash characters of the regexes `^[-–—]+\s*` and `\s*[-–—]+$`. -/
def isDash (c : Char) : Bool := c == '-' || c == '–' || c == '—'

/-- `replace(/^[-–—]+\s*/, '')`: when the string begins with dashes,
remove them and the following whitespace. -/
def stripLeadDashes (l : List Char) : List Char :=
  match l with
  | [] => []
  | c :: _ => if isDash c then (l.dropWhile isDash).dropWhile jsIsWs else l

/-- `replace(/\s*[-–—]+$/, '')`: when the string ends with dashes, remove
them and the preceding whitespace. -/
def stripTrailDashes (l : List Char) : List Char :=
  match l.reverse with
  | [] => []
  | c :: _ =>
      if isDash c then ((l.reverse.dropWhile isDash).dropWhile jsIsWs).reverse else l

/-- `normalizeNameCandidate` from `src/lib/pickBusinessName.js`
(lines 38–47): collapse whitespace, trim, strip framing dashes. -/
def normalizeNameCandidate (name : String) : String :=
  let s1 := jsTrim (String.mk (collapseWsAux name.toList false))
  jsTrim (String.mk (stripTrailDashes (stripLeadDashes s1.toList)))

/-- Drop everything up to and including the first occurrence of `needle`. -/
def dropThroughSub (needle : List Char) : List Char → Option (List Char)
  | [] => if needle.isEmpty then some [] else none
  | c :: t => if leadsWith needle (c :: t) then some ((c :: t).drop needle.length)
      else dropThroughSub needle t

/-- `domainToken` (lines 7–15): hostname of the url minus `www.`, first
dot-separated label (`new URL` failure, modelled as a missing `://`,
yields `""`). -/
def domainToken (url : String) : String :=
  match dropThroughSub "://".toList url.toList with
  | none => ""
  | some rest =>
      let host := (rest.takeWhile
        (fun c => c ≠ '/' ∧ c ≠ ':' ∧ c ≠ '?' ∧ c ≠ '#')).map jsLowerChar
      let host := if leadsWith "www.".toList host then host.drop 4 else host
      String.mk (host.takeWhile (fun c => c ≠ '.'))

/-- `GENERIC_WORDS` (lines 17–36). -/
def GENERIC_WORDS : List String :=
  ["kadernictvi", "kadeřnictví", "salon", "salón", "studio", "studío",
   "premiove", "prémiové", "luxusni", "luxusní", "krasa", "krása",
   "sluzby", "služby", "vlasy", "vlasu", "vlasů", "barber"]

/-- Split into maximal runs of characters satisfying `p`
(JS `split(/[^...]+/).filter(Boolean)`); `cur` is the reversed run
being collected. -/
def splitRunsAux (p : Char → Bool) : List Char → List Char → List (List Char)
  | [], cur => if cur.isEmpty then [] else [cur.reverse]
  | c :: t, cur =>
      if p c then splitRunsAux p t (c :: cur)
      else if cur.isEmpty then splitRunsAux p t []
      else cur.reverse :: splitRunsAux p t []

/-- Runs of `p`-characters, left to right. -/
def splitRuns (p : Char → Bool) (l : List Char) : List (List Char) :=
  splitRunsAux p l []

/-- ASCII lowercase alphanumeric (the `[^a-z0-9]+/i` separator class,
applied to an already lowercased, diacritic-stripped string). -/
def isLowerAlnum (c : Char) : Bool :=
  ('a' ≤ c && c ≤ 'z') || ('0' ≤ c && c ≤ '9')

/-- `scoreBusinessName` (lines 55–93): the brand-name heuristic weight
table (+35 domain token, +25 trademark glyph, +10 short, −25 long,
−12 per generic word, +8 mixed case, −10 for 4+ spaces). -/
def scoreBusinessName (name url : String) : Int :=
  let n := normalizeNameCandidate name
  if n = "" then -1000
  else
    let lower := jsToLower n
    let token := domainToken url
    let s1 : Int := if token ≠ "" ∧ strContains lower token then 35 else 0
    let s2 : Int := if n.toList.any (fun c => c = '®' ∨ c = '™') then 25 else 0
    let s3 : Int := if n.length ≤ 25 then 10 else 0
    let s4 : Int := if 60 < n.length then -25 else 0
    let words := splitRuns isLowerAlnum (stripDiacritics lower).toList
    let gcount := (words.filter (fun w => GENERIC_WORDS.contains (String.mk w))).length
    let s5 : Int := -12 * (gcount : Int)
    let hasLo := n.toList.any
      (fun c => ('a' ≤ c ∧ c ≤ 'z') ∨ (0xE1 ≤ c.toNat ∧ c.toNat ≤ 0x17E))
    let hasUp := n.toList.any
      (fun c => ('A' ≤ c ∧ c ≤ 'Z') ∨ (0xC1 ≤ c.toNat ∧ c.toNat ≤ 0x17D))
    let s6 : Int := if hasLo ∧ hasUp then 8 else 0
    let spaceCount := (n.toList.filter jsIsWs).length
    let s7 : Int := if 4 ≤ spaceCount then -10 else 0
    s1 + s2 + s3 + s4 + s5 + s6 + s7

/-- `isGenericBusinessName` (lines 95–97). -/
def isGenericBusinessName (name url : String) : Bool :=
  scoreBusinessName name url < 5

/-! ## `src/unnamed/part_007` — the profile reconciler
`applyImportedBusinessData` (lines 890–1149)

The durable store is modelled by `DbState`: the `businesses.name`
column, the single `business_profile` row, the `services` rows (unique
by slug) and the `opening_hours` rows (unique by weekday) of one
business.  Supabase `upsert` with an `onConflict` key updates the
conflicting row with all payload columns, else appends. -/

/-- The `business_profile` columns written by the reconciler. -/
structure DbProfile where
  name : Option String
  address : Option String
  phone : Option String
  email : Option String
  website_url : Option String
deriving DecidableEq, Repr

/-- `ImportedProfile` (typedef, lines 1–8). -/
structure ImportedProfile where
  name : Option String
  address : Option String
  phone : Option String
  email : Option String
  website : Option String
deriving DecidableEq, Repr

/-- `ImportedService` (typedef, lines 10–18). -/
structure ImportedService where
  name : Option String
  description : Option String
  durationMinutes : Option Int
  priceFrom : Option Int
  priceTo : Option Int
  isCore : Bool
deriving DecidableEq, Repr

/-- `ImportedOpeningHour` (typedef, lines 20–26). -/
structure ImportedOpeningHour where
  weekday : String
  opensAt : Option String
  closesAt : Option String
  closed : Bool
deriving DecidableEq, Repr

/-- `ImportedBusinessData` (typedef, lines 28–33). -/
structure ImportedData where
  profile : ImportedProfile
  services : List ImportedService
  openingHours : List ImportedOpeningHour
deriving DecidableEq, Repr

/-- A `services` row (columns written by the upsert, lines 1069–1079). -/
structure ServiceRow where
  name : String
  slug : String
  description : Option String
  duration_minutes : Option Int
  price_from : Option Int
  price_to : Option Int
  is_active : Bool
  is_bookable : Bool
deriving DecidableEq, Repr

/-- An `opening_hours` row (columns written, lines 1123–1130). -/
structure HourRow where
  weekday : String
  opens_at : Option String
  closes_at : Option String
deriving DecidableEq, Repr

/-- The durable store of one business, as touched by the reconciler. -/
structure DbState where
  businessName : Option String
  profile : Option DbProfile
  services : List ServiceRow
  hours : List HourRow
deriving DecidableEq, Repr

/-- The `coalesce` helper (lines 972–978): use the new value only when it
trims to something non-empty, else keep the existing one. -/
def coalesce (newVal existingVal : Option String) : Option String :=
  match newVal with
  | some s => let t := jsTrim s; if t ≠ "" then some t else existingVal
  | none => existingVal

/-- JS truthiness of an optional string. -/
def truthyS (v : Option String) : Bool :=
  match v with
  | some s => s ≠ ""
  | none => false

/-- Name choice when a website and a non-empty imported name are present
(lines 986–993): keep a missing existing name out, replace a generic,
lower-scoring existing name, keep any other existing name. -/
def nameToSaveCore (wv inm : String) (eN : Option String) : Option String :=
  match eN with
  | none => some inm
  | some ex =>
      if isGenericBusinessName ex wv ∧ scoreBusinessName ex wv < scoreBusinessName inm wv
      then some inm else some ex

/-- The profile-name decision (lines 981–994): with a website to score
against and a non-empty imported name, replace only a missing or
generic-and-lower-scoring existing name; otherwise plain coalesce. -/
def nameToSave (website imported existing0 : Option String) : Option String :=
  match orNull website, orNull imported with
  | some wv, some inm => nameToSaveCore wv inm (orNull existing0)
  | _, _ => coalesce (orNull imported) (orNull existing0)

/-- `newName !== existingName` (line 935). -/
def bnDiffers (nn : String) (ex : Option String) : Bool :=
  match ex with
  | none => true
  | some e => nn != e

/-- `!existingName || (websiteForScoring && isGeneric && higher score)`
(lines 936–939). -/
def bnAllowed (w : Option String) (nn : String) (ex : Option String) : Bool :=
  match ex with
  | none => true
  | some e =>
      if e = "" then true
      else
        match orNull w with
        | some wv => isGenericBusinessName e wv &&
            decide (scoreBusinessName e wv < scoreBusinessName nn wv)
        | none => false

/-- `businesses.name` update decision on the trimmed new name. -/
def applyBusinessNameCore (w : Option String) (nn : String) (bName : Option String) :
    Option String :=
  if nn = "" then bName
  else if bnDiffers nn (bName.map jsTrim) && bnAllowed w nn (bName.map jsTrim)
  then some nn
  else bName

/-- STEP 1 (lines 929–955): update `businesses.name` only when the new
trimmed name is non-empty, differs, and the existing one is missing/empty
or generic and lower-scoring. -/
def applyBusinessName (website dName bName : Option String) : Option String :=
  match dName with
  | none => bName
  | some s => applyBusinessNameCore website (jsTrim s) bName

/-- Characters kept by `makeSlugFromName`'s filter
(`replace(/[^a-z0-9\s-]/g, '')`). -/
def isSlugKeep (c : Char) : Bool :=
  isLowerAlnum c || jsIsWs c || c == '-'

/-- Collapse runs of `'_'` (`replace(/_+/g, '_')`); the flag records
whether the previous character was an underscore. -/
def collapseUsAux : List Char → Bool → List Char
  | [], _ => []
  | c :: t, prev =>
      if c = '_' then
        if prev then collapseUsAux t true else '_' :: collapseUsAux t true
      else c :: collapseUsAux t false

/-- `makeSlugFromName` (lines 861–874): lowercase, strip diacritics, drop
foreign characters, turn whitespace/hyphen runs into single underscores,
trim framing underscores. -/
def makeSlugFromName (name : String) : String :=
  if name = "" then ""
  else
    let l0 := (jsToLower name).toList.map stripDiacriticChar
    let l1 := l0.filter isSlugKeep
    let l2 := trimChars l1
    let l3 := l2.map (fun c => if jsIsWs c || c == '-' then '_' else c)
    let l4 := collapseUsAux l3 false
    let l5 := ((l4.dropWhile (fun c => c = '_')).reverse.dropWhile (fun c => c = '_')).reverse
    String.mk l5

/-- The slug of a services row (the upsert conflict key, scoped to one
business). -/
def slugKey (r : ServiceRow) : String := r.slug

/-- The weekday of an opening-hours row (the upsert conflict key). -/
def hourKey (r : HourRow) : String := r.weekday

/-- The `existingBySlug` lookup (lines 1049–1056): a JS `Map` built in
row order with `set` overwrite, so the last row with a given slug wins. -/
def lookupLastBySlug (rows : List ServiceRow) (slug : String) : Option ServiceRow :=
  (rows.filter (fun r => r.slug == slug)).getLast?

/-- The preserved `is_bookable` flag for a slug (lines 1066–1067). -/
def bookFor (rows : List ServiceRow) (slug : String) : Bool :=
  match lookupLastBySlug rows slug with
  | some e => e.is_bookable
  | none => false

/-- `baseName` of an imported service (line 1060). -/
def serviceBaseName (i : Nat) (s : ImportedService) : String :=
  match orNull s.name with
  | some n => n
  | none => "Služba z webu " ++ toString (i + 1)

/-- `slug` of an imported service (line 1063). -/
def serviceSlug (i : Nat) (s : ImportedService) : String :=
  let slug0 := makeSlugFromName (serviceBaseName i s)
  if slug0 = "" then "service-" ++ toString (i + 1) else slug0

/-- One raw payload row (lines 1069–1079), with the bookable-flag source
abstracted to the lookup function it is read with. -/
def rawServiceRow (book : String → Bool) (i : Nat) (s : ImportedService) : ServiceRow :=
  { name := serviceBaseName i s
    slug := serviceSlug i s
    description := s.description
    duration_minutes := s.durationMinutes
    price_from := s.priceFrom
    price_to := s.priceTo
    is_active := true
    is_bookable := book (serviceSlug i s) }

/-- Raw services payload (lines 1059–1080): one row per imported service,
with name/slug fallbacks by position and the preserved bookable flag. -/
def rawServices (existing : List ServiceRow) (services : List ImportedService) :
    List ServiceRow :=
  services.enum.map (fun p => rawServiceRow (bookFor existing) p.1 p.2)

/-- Deduplication by `(business_id, slug)` key (lines 1083–1089): a JS
`Map` keyed by slug, so the key order is first occurrence and the value
is the last occurrence.  `seen` carries the keys already emitted. -/
def dedupBySlugGo : List ServiceRow → List String → List ServiceRow
  | [], _ => []
  | r :: rest, seen =>
      if seen.contains r.slug then dedupBySlugGo rest seen
      else
        (((r :: rest).filter (fun x => x.slug == r.slug)).getLast?.getD r) ::
          dedupBySlugGo rest (r.slug :: seen)

/-- `servicesPayload` deduplication entry point. -/
def dedupBySlug (rows : List ServiceRow) : List ServiceRow :=
  dedupBySlugGo rows []

/-- Postgres `upsert` of one row with a conflict key: update the
conflicting rows with the payload columns, else append. -/
def upsertBy {α : Type} (key : α → String) (rows : List α) (r : α) : List α :=
  if rows.any (fun x => key x == key r) then
    rows.map (fun x => if key x == key r then r else x)
  else rows ++ [r]

/-- `upsert` of a whole payload, row by row. -/
def upsertAllBy {α : Type} (key : α → String) (rows : List α) (payload : List α) :
    List α :=
  payload.foldl (upsertBy key) rows

/-- `r`'s key is present in `rows` and every row carrying it equals `r`
(the state of a keyed table right after upserting `r`). -/
def KeyedAll {α : Type} (key : α → String) (rows : List α) (r : α) : Prop :=
  (∃ x ∈ rows, key x = key r) ∧ ∀ x ∈ rows, key x = key r → x = r

/-- The `validHours` filter (lines 1118–1120): keep entries with truthy
`opensAt` and `closesAt`. -/
def validHours (l : List ImportedOpeningHour) : List ImportedOpeningHour :=
  l.filter (fun oh => truthyS oh.opensAt && truthyS oh.closesAt)

/-- The opening-hours payload (lines 1123–1130). -/
def hourPayload (l : List ImportedOpeningHour) : List HourRow :=
  l.map (fun oh => ⟨oh.weekday, oh.opensAt, oh.closesAt⟩)

/-- `applyImportedBusinessData` (lines 890–1149) as a pure transformer of
the durable store (`updated_at` timestamps are not modelled). -/
def applyImportedBusinessData (st : DbState) (d : ImportedData) : DbState :=
  let bName := applyBusinessName d.profile.website d.profile.name st.businessName
  let profileRow : DbProfile :=
    { name := nameToSave d.profile.website d.profile.name (st.profile.bind (·.name))
      address := coalesce d.profile.address (st.profile.bind (·.address))
      phone := coalesce d.profile.phone (st.profile.bind (·.phone))
      email := coalesce d.profile.email (st.profile.bind (·.email))
      website_url := coalesce d.profile.website (st.profile.bind (·.website_url)) }
  let services' :=
    if d.services.isEmpty then st.services
    else upsertAllBy slugKey st.services (dedupBySlug (rawServices st.services d.services))
  let vh := validHours d.openingHours
  let hours' :=
    if vh.isEmpty then st.hours
    else upsertAllBy hourKey st.hours (hourPayload vh)
  { businessName := bName
    profile := some profileRow
    services := services'
    hours := hours' }

/-! ## `src/unnamed/part_007` — opening-hours precedence (lines 744–798)

`finalOpeningHoursArray` starts from the LLM extraction, is replaced by
the JSON-LD hours when those have at least one valid day, is then
replaced by the heuristic regex hours whenever those exist, and falls
back to Fresha only when still empty. -/

/-- A per-day `{opens, closes}` record of the JSON-LD / heuristic maps. -/
structure DayHours where
  opens : String
  closes : String
deriving DecidableEq, Repr

/-- A per-day record of the LLM `opening_hours` object (either time may
be `null`). -/
structure LlmDay where
  opens : Option String
  closes : Option String
deriving DecidableEq, Repr

/-- The `weekdayMap` iteration order (lines 430–438). -/
def weekdayKeys : List String := ["mon", "tue", "wed", "thu", "fri", "sat", "sun"]

/-- Build entries from a per-day map, keeping a day only when both times
are truthy (lines 752–759 and 762–774 share this shape). -/
def buildHoursArray (m : String → Option DayHours) : List ImportedOpeningHour :=
  weekdayKeys.filterMap (fun wk =>
    match m wk with
    | some h =>
        if h.opens ≠ "" ∧ h.closes ≠ "" then some ⟨wk, some h.opens, some h.closes, false⟩
        else none
    | none => none)

/-- The LLM baseline array (lines 442–455): a day is included only when
the LLM object has truthy `opens` and `closes`. -/
def llmHoursArray (llm : String → Option LlmDay) : List ImportedOpeningHour :=
  weekdayKeys.filterMap (fun wk =>
    match llm wk with
    | some h =>
        match h.opens, h.closes with
        | some o, some c =>
            if o ≠ "" ∧ c ≠ "" then some ⟨wk, some o, some c, false⟩ else none
        | _, _ => none
    | none => none)

/-- `validDays` of a JSON-LD style map (line 537). -/
def jsonLdValidDays (j : String → Option DayHours) : Nat :=
  ((weekdayKeys.filterMap j).filter (fun h => h.opens ≠ "" ∧ h.closes ≠ "")).length

/-- `finalOpeningHoursArray` (lines 744–798): LLM baseline, JSON-LD
override when it has valid days, heuristic override whenever the
heuristic found anything, Fresha fallback only when still empty, and a
final reset to `[]` when no valid entry remains. -/
def finalOpeningHoursArray (llm : String → Option LlmDay)
    (jsonld : String → Option DayHours)
    (heur : Option (String → Option DayHours))
    (freshaDetected : Bool) (fresha : String → Option DayHours) :
    List ImportedOpeningHour :=
  let a0 := llmHoursArray llm
  let a1 := if 0 < jsonLdValidDays jsonld then buildHoursArray jsonld else a0
  let a2 :=
    match heur with
    | some h => buildHoursArray h
    | none => a1
  let a3 :=
    if a2.isEmpty ∧ freshaDetected ∧ 0 < jsonLdValidDays fresha
    then buildHoursArray fresha else a2
  let validCount := (a3.filter (fun h => truthyS h.opensAt && truthyS h.closesAt)).length
  if validCount = 0 then [] else a3

/-! ## Concrete fixtures used by witnesses and counterexamples -/

/-- "New value is null or empty" for a profile field (the coalesce test
`newTrimmed && newTrimmed !== ''` failing). -/
def newEmptyVal (v : Option String) : Prop :=
  match v with
  | none => True
  | some s => jsTrim s = ""

instance decNewEmptyVal (v : Option String) : Decidable (newEmptyVal v) :=
  match v with
  | none => isTrue trivial
  | some s => if h : jsTrim s = "" then isTrue h else isFalse h

/-- A stored state with one bookable service carrying a description and a
duration. -/
def exStoredState : DbState :=
  { businessName := some "Salon U Nás"
    profile := some { name := some "Salon U Nás", address := some "Dlouhá 5, Praha"
                      phone := some "+420608744774", email := some "info@unas.cz"
                      website_url := some "https://unas.cz" }
    services := [{ name := "Střih", slug := "strih", description := some "Starý popis"
                   duration_minutes := some 30, price_from := some 300, price_to := none
                   is_active := true, is_bookable := true }]
    hours := [{ weekday := "mon", opens_at := some "09:00", closes_at := some "17:00" }] }

/-- A re-import of the same service with a changed description and no
duration, plus empty profile fields. -/
def exReimportData : ImportedData :=
  { profile := { name := none, address := none, phone := none, email := none
                 website := none }
    services := [{ name := some "Střih", description := none
                   durationMinutes := none, priceFrom := some 350, priceTo := none
                   isCore := true }]
    openingHours := [] }

/-- An import with every field present, for the idempotence witness. -/
def exFullImport : ImportedData :=
  { profile := { name := some "Studio Nové", address := some "Krátká 7, Brno"
                 phone := some "+420777111222", email := some "studio@nove.cz"
                 website := some "https://nove.cz" }
    services := [{ name := some "Pánský střih", description := some "Klasický střih"
                   durationMinutes := some 30, priceFrom := some 300, priceTo := none
                   isCore := true }]
    openingHours := [{ weekday := "mon", opensAt := some "08:00", closesAt := some "18:00"
                       closed := false }] }

/-- LLM hours for the opening-hours precedence check: nothing extracted. -/
def c2llmHours : String → Option LlmDay := fun _ => none

/-- JSON-LD hours: Monday 09:00–17:00. -/
def c2jsonldHours : String → Option DayHours := fun w =>
  if w = "mon" then some ⟨"09:00", "17:00"⟩ else none

/-- Heuristic regex hours: Monday 10:00–18:00. -/
def c2heurHours : String → Option DayHours := fun w =>
  if w = "mon" then some ⟨"10:00", "18:00"⟩ else none

/-! ## The Playwright crawl loop (`crawlWebsiteWithPlaywright`)

Pure control skeleton of the crawl: URL normalization, renders and link
classification happen against a `CrawlConfig` that carries the
environment (the `world` gives each navigation's outcome and the page's
extracted links).  The per-invocation state mirrors the JS locals
(`queue`, `seen`, `visited`, `pagesCrawled`) plus instrumentation: the
navigation trace, the emitted pages (`crawledPagesWithContent`) and the
dequeue order. -/

/-- A link as returned by the in-page `$$eval` extraction: absolute
normalized href plus anchor text. -/
structure Link where
  href : String
  text : String
deriving DecidableEq, Repr

/-- Outcome of navigating to one URL: both `safeGoto` strategies failed /
non-timeout error (`navFail`), non-2xx (`httpFail`), or a rendered page
with its DB-insert result and discovered links (a link-extraction
exception yields `links = []`, as in the catch handler). -/
inductive PageOutcome where
  | navFail : PageOutcome
  | httpFail : PageOutcome
  | page (insertOk : Bool) (links : List Link) : PageOutcome
deriving Repr

/-- A queued crawl task (`{ url, depth, fromPriority }`). -/
structure CrawlTask where
  url : String
  depth : Nat
  fromPriority : Bool
deriving DecidableEq, Repr

/-- The crawl environment: the budgets, `normalizeUrl`, `shouldExclude`,
the navigation outcomes, and the three seed sources. -/
structure CrawlConfig where
  maxDepth : Nat
  maxPages : Nat
  normalize : String → String
  exclude : String → Bool
  world : String → PageOutcome
  baseUrl : String
  forcedUrls : List String
  sitemapUrls : List String

/-- The crawl-local mutable state, plus instrumentation (`renderTrace`:
normalized URLs navigated to, in order; `emitted`: pages pushed to
`crawledPagesWithContent`; `dequeued`: URLs shifted off the queue). -/
structure CrawlState where
  queue : List CrawlTask
  seen : List String
  visited : List String
  pagesCrawled : Nat
  renders : Nat
  renderTrace : List String
  emitted : List String
  dequeued : List String
deriving Repr

/-- `PRIORITY_LINK_TEXTS` (lines 243–262). -/
def PRIORITY_LINK_TEXTS : List String :=
  ["kontakt", "contact", "contacts", "kontakty", "rezervace", "rezervovat",
   "booking", "book now", "appointment", "reservation", "ceník", "cenník",
   "ceny", "price list", "prices", "menu", "služby", "services"]

/-- `PRIORITY_HREF_PATTERNS` (lines 264–280): each regex is a
case-insensitive literal path fragment. -/
def PRIORITY_HREF_PATTERNS : List String :=
  ["/kontakt", "/contact", "/contacts", "/rezervace", "/booking", "/book",
   "/appointment", "/reservation", "/cenik", "/cennik", "/ceny", "/price",
   "/menu", "/sluzby", "/services"]

/-- Priority classification of a discovered link (lines 874–883). -/
def classifyPriority (l : Link) : Bool :=
  PRIORITY_LINK_TEXTS.any (fun k => strContains (jsToLower l.text) k) ||
  PRIORITY_HREF_PATTERNS.any (fun pat => strContains (jsToLower l.href) pat)

/-- The discovered links surviving the per-link exclusion and visited
checks (lines 869–872); the visited set at that point already holds the
current page's normalized URL. -/
def stepPool (cfg : CrawlConfig) (t : CrawlTask) (s : CrawlState) : List Link :=
  match cfg.world (cfg.normalize t.url) with
  | .page _ links =>
      links.filter (fun l => !cfg.exclude l.href &&
        !((cfg.normalize t.url :: s.visited).contains l.href))
  | _ => []

/-- The priority hrefs of the current step, in discovery order. -/
def stepPrio (cfg : CrawlConfig) (t : CrawlTask) (s : CrawlState) : List String :=
  ((stepPool cfg t s).filter classifyPriority).map (fun l => l.href)

/-- The normal hrefs of the current step, in discovery order. -/
def stepNorm (cfg : CrawlConfig) (t : CrawlTask) (s : CrawlState) : List String :=
  ((stepPool cfg t s).filter (fun l => !classifyPriority l)).map (fun l => l.href)

/-- The link-enqueueing fold state (`queue`, `seen`, `addedCount`). -/
structure EnqSt where
  queue : List CrawlTask
  seen : List String
  added : Nat
deriving Repr

/-- One link enqueue attempt (lines 900–921): subject to the queue cap
(400), the per-page fan-out cap (50) and the depth bound, a link neither
visited nor seen is marked seen and unshifted (priority) or pushed
(normal). -/
def enqStep (cfg : CrawlConfig) (visited : List String) (front : Bool) (d1 : Nat)
    (st : EnqSt) (link : String) : EnqSt :=
  if st.queue.length < 400 ∧ st.added < 50 ∧ d1 ≤ cfg.maxDepth then
    if !visited.contains link && !st.seen.contains link then
      { queue := if front then ⟨link, d1, front⟩ :: st.queue
                 else st.queue ++ [⟨link, d1, front⟩]
        seen := link :: st.seen
        added := st.added + 1 }
    else st
  else st

/-- Enqueue all discovered links: priority links to the front, then
normal links to the back, sharing one `addedCount`. -/
def addLinks (cfg : CrawlConfig) (visited : List String) (depth : Nat)
    (prio norm : List String) (q : List CrawlTask) (seen : List String) : EnqSt :=
  norm.foldl (enqStep cfg visited false (depth + 1))
    (prio.foldl (enqStep cfg visited true (depth + 1)) ⟨q, seen, 0⟩)

/-- State after `visited.add` and the navigation attempt. -/
def stRendered (cfg : CrawlConfig) (t : CrawlTask) (s : CrawlState) : CrawlState :=
  { s with visited := cfg.normalize t.url :: s.visited
           renders := s.renders + 1
           renderTrace := s.renderTrace ++ [cfg.normalize t.url] }

/-- State after the `crawledPagesWithContent.push`. -/
def stEmitted (cfg : CrawlConfig) (t : CrawlTask) (s : CrawlState) : CrawlState :=
  { stRendered cfg t s with emitted := s.emitted ++ [cfg.normalize t.url] }

/-- State after `pagesCrawled++`. -/
def stCounted (cfg : CrawlConfig) (t : CrawlTask) (s : CrawlState) : CrawlState :=
  { stEmitted cfg t s with pagesCrawled := s.pagesCrawled + 1 }

/-- State after link discovery and enqueueing. -/
def stDiscovered (cfg : CrawlConfig) (t : CrawlTask) (s : CrawlState) : CrawlState :=
  { stCounted cfg t s with
    queue := (addLinks cfg (cfg.normalize t.url :: s.visited) t.depth
      (stepPrio cfg t s) (stepNorm cfg t s) s.queue s.seen).queue
    seen := (addLinks cfg (cfg.normalize t.url :: s.visited) t.depth
      (stepPrio cfg t s) (stepNorm cfg t s) s.queue s.seen).seen }

/-- Process one dequeued task (the loop body after the shift, lines
602–930): skip already-visited or over-depth URLs, navigate, skip
failures, emit the page, insert, count it, and discover links when depth
and budget allow (the budget test uses the incremented counter). -/
def processTask (cfg : CrawlConfig) (t : CrawlTask) (s : CrawlState) : CrawlState :=
  if s.visited.contains (cfg.normalize t.url) || decide (cfg.maxDepth < t.depth) then s
  else
    match cfg.world (cfg.normalize t.url) with
    | .navFail => stRendered cfg t s
    | .httpFail => stRendered cfg t s
    | .page insertOk _ =>
        if !insertOk then stEmitted cfg t s
        else
          if t.depth < cfg.maxDepth ∧ s.pagesCrawled + 1 < cfg.maxPages then
            stDiscovered cfg t s
          else stCounted cfg t s

/-- The main crawl loop (`while (queue.length > 0 && pagesCrawled <
maxPages)`), with fuel for termination. -/
def crawlLoop (cfg : CrawlConfig) : Nat → CrawlState → CrawlState
  | 0, s => s
  | fuel + 1, s =>
      match s.queue with
      | [] => s
      | t :: rest =>
          if s.pagesCrawled < cfg.maxPages then
            crawlLoop cfg fuel (processTask cfg t
              { s with queue := rest, dequeued := s.dequeued ++ [t.url] })
          else s

/-- `enqueue` used for seeding (lines 452–459). -/
def enqueueInit (cfg : CrawlConfig) (s : CrawlState) (url : String) (depth : Nat)
    (fromPrio : Bool) : CrawlState :=
  if url = "" then s
  else if s.seen.contains (cfg.normalize url) then s
  else if cfg.exclude (cfg.normalize url) then s
  else { s with seen := cfg.normalize url :: s.seen
                queue := s.queue ++ [⟨cfg.normalize url, depth, fromPrio⟩] }

/-- The seeded initial state: base URL (depth 0), forced URLs (depth 1,
priority), sitemap URLs (depth 1). -/
def initState (cfg : CrawlConfig) : CrawlState :=
  let s0 : CrawlState := ⟨[], [], [], 0, 0, [], [], []⟩
  let s1 := enqueueInit cfg s0 cfg.baseUrl 0 false
  let s2 := cfg.forcedUrls.foldl (fun s u => enqueueInit cfg s u 1 true) s1
  cfg.sitemapUrls.foldl (fun s u => enqueueInit cfg s u 1 false) s2

/-- A whole crawl invocation. -/
def crawlRun (cfg : CrawlConfig) (fuel : Nat) : CrawlState :=
  crawlLoop cfg fuel (initState cfg)

/-- Queue/trace well-formedness maintained by the crawl: queued URLs are
pairwise distinct, dequeued URLs are pairwise distinct, no URL is both
queued and dequeued, and everything queued or dequeued has been seen. -/
def WFQueue (s : CrawlState) : Prop :=
  (s.queue.map (fun a => a.url)).Nodup ∧
  s.dequeued.Nodup ∧
  (∀ u ∈ s.queue.map (fun a => a.url), u ∉ s.dequeued) ∧
  (∀ u ∈ s.queue.map (fun a => a.url), u ∈ s.seen) ∧
  (∀ u ∈ s.dequeued, u ∈ s.seen)

/-- Well-formedness of the enqueue fold state relative to the dequeued
trace. -/
def EnqWF (dequeued : List String) (st : EnqSt) : Prop :=
  (st.queue.map (fun a => a.url)).Nodup ∧
  (∀ u ∈ st.queue.map (fun a => a.url), u ∈ st.seen) ∧
  (∀ u ∈ st.queue.map (fun a => a.url), u ∉ dequeued) ∧
  (∀ u ∈ dequeued, u ∈ st.seen)

/-- `p` is dequeued no later than any dequeue of `n` (with `p ≠ n`, this
is strict precedence in the dequeue order). -/
def tracePrec (tr : List String) (p n : String) : Prop :=
  ∀ k, n ∈ tr.take k → p ∈ tr.take k

/-- `p` occurs strictly before `n` in the queue. -/
def inQueueBefore (q : List CrawlTask) (p n : String) : Prop :=
  ∃ l1 l2 l3, q.map (fun a => a.url) = l1 ++ p :: l2 ++ n :: l3

/-- The precedence invariant carried through the crawl: either both URLs
are still queued in order, or `p` is already dequeued and `n` is not, or
`n` has been dequeued after `p`. -/
def PrecInv (s : CrawlState) (p n : String) : Prop :=
  WFQueue s ∧
  ((p ∉ s.dequeued ∧ n ∉ s.dequeued ∧ inQueueBefore s.queue p n) ∨
   (p ∈ s.dequeued ∧ n ∉ s.dequeued) ∨
   (n ∈ s.dequeued ∧ tracePrec s.dequeued p n))

/-- The dedup invariant of a crawl state: visited and the navigation
trace are duplicate-free, the trace is within visited, and the emitted
pages are a subsequence of the trace. -/
def Inv5 (s : CrawlState) : Prop :=
  s.visited.Nodup ∧ s.renderTrace.Nodup ∧
  (∀ u ∈ s.renderTrace, u ∈ s.visited) ∧ s.emitted.Sublist s.renderTrace

/-- Crawl environment of the C3 counterexample: two seeded URLs, the
first of which fails to render. -/
def c3cfg : CrawlConfig :=
  { maxDepth := 1, maxPages := 1
    normalize := fun u => u
    exclude := fun _ => false
    world := fun u => if u = "https://ex.cz/b" then .page true [] else .navFail
    baseUrl := "https://ex.cz/a"
    forcedUrls := ["https://ex.cz/b"]
    sitemapUrls := [] }

/-- Crawl environment of the C4 witness: the base page links one
priority link (`Kontakt`) and one normal link. -/
def c4cfg : CrawlConfig :=
  { maxDepth := 2, maxPages := 10
    normalize := fun u => u
    exclude := fun _ => false
    world := fun u =>
      if u = "https://ex.cz" then
        .page true [⟨"https://ex.cz/kontakt", "Kontakt"⟩,
                    ⟨"https://ex.cz/o-nas", "Tym"⟩]
      else .page true []
    baseUrl := "https://ex.cz"
    forcedUrls := []
    sitemapUrls := [] }

/-- The base-page task of the C4 witness. -/
def c4task : CrawlTask := ⟨"https://ex.cz", 0, false⟩

/-- The crawl state of the C4 witness just after the base task has been
shifted off the queue. -/
def c4state : CrawlState :=
  { queue := [], seen := ["https://ex.cz"], visited := [], pagesCrawled := 0
    renders := 0, renderTrace := [], emitted := []
    dequeued := ["https://ex.cz"] }

/-! ## Candidate sorting lemmas -/

/-- Membership is preserved by the stable insertion step. -/
theorem mem_insertDescByScore {c x : AddrCandidate} {l : List AddrCandidate}
    (hx : x ∈ insertDescByScore c l) : x = c ∨ x ∈ l := by
  induction l with
  | nil =>
      simp only [insertDescByScore, List.mem_singleton] at hx
      exact Or.inl hx
  | cons d ds ih =>
      simp only [insertDescByScore] at hx
      split at hx
      · rcases List.mem_cons.mp hx with h1 | h2
        · exact Or.inl h1
        · exact Or.inr h2
      · rcases List.mem_cons.mp hx with h1 | h2
        · exact Or.inr (by simp [h1])
        · rcases ih h2 with h3 | h4
          · exact Or.inl h3
          · exact Or.inr (List.mem_cons_of_mem _ h4)

/-- The head of the sorted candidate list is one of the candidates. -/
theorem mem_of_mem_sortByScoreDesc {x : AddrCandidate} {l : List AddrCandidate}
    (hx : x ∈ sortByScoreDesc l) : x ∈ l := by
  induction l with
  | nil => simp [sortByScoreDesc] at hx
  | cons d ds ih =>
      rcases mem_insertDescByScore (c := d) (l := sortByScoreDesc ds) hx with h | h
      · simp [h]
      · exact List.mem_cons_of_mem _ (ih h)

/-! ## Upsert algebra -/

/-- Map with a pointwise-identical function is the identity. -/
theorem map_id_of_eq {α : Type} {l : List α} {f : α → α}
    (h : ∀ x ∈ l, f x = x) : l.map f = l := by
  induction l with
  | nil => rfl
  | cons a t ih =>
      simp only [List.map_cons]
      rw [h a (by simp), ih (fun x hx => h x (List.mem_cons_of_mem _ hx))]

/-- After upserting `r`, its key is present and all rows with it are `r`. -/
theorem keyedAll_upsertBy_self {α : Type} (key : α → String) (rows : List α) (r : α) :
    KeyedAll key (upsertBy key rows r) r := by
  unfold upsertBy KeyedAll
  by_cases h : rows.any (fun x => key x == key r) = true
  · rw [if_pos h]
    obtain ⟨x, hx, hkx⟩ := List.any_eq_true.mp h
    have hkey : key x = key r := by simpa using hkx
    constructor
    · exact ⟨r, List.mem_map.mpr ⟨x, hx, by simp [hkey]⟩, rfl⟩
    · intro y hy hky
      obtain ⟨z, hz, hfz⟩ := List.mem_map.mp hy
      by_cases hkz : key z = key r
      · simp only [hkz] at hfz
        simp only [beq_self_eq_true, if_true] at hfz
        exact hfz.symm
      · simp [hkz] at hfz
        subst hfz
        exact absurd hky hkz
  · rw [if_neg h]
    constructor
    · exact ⟨r, by simp, rfl⟩
    · intro y hy hky
      rcases List.mem_append.mp hy with h1 | h2
      · exact absurd (List.any_eq_true.mpr ⟨y, h1, by simp [hky]⟩) h
      · simpa using h2

/-- Upserting a row with a different key preserves `KeyedAll`. -/
theorem keyedAll_upsertBy_other {α : Type} (key : α → String) {rows : List α} {r : α}
    (s : α) (hne : key s ≠ key r) (hk : KeyedAll key rows r) :
    KeyedAll key (upsertBy key rows s) r := by
  obtain ⟨⟨x, hx, hkx⟩, hall⟩ := hk
  unfold upsertBy
  by_cases h : rows.any (fun y => key y == key s) = true
  · rw [if_pos h]
    constructor
    · have hxs : ¬ key x = key s := by
        rw [hkx]
        exact fun he => hne he.symm
      exact ⟨x, List.mem_map.mpr ⟨x, hx, by simp [hxs]⟩, hkx⟩
    · intro y hy hky
      obtain ⟨z, hz, hfz⟩ := List.mem_map.mp hy
      by_cases hkz : key z = key s
      · simp [hkz] at hfz
        subst hfz
        exact absurd hky hne
      · simp [hkz] at hfz
        subst hfz
        exact hall z hz hky
  · rw [if_neg h]
    constructor
    · exact ⟨x, List.mem_append_left _ hx, hkx⟩
    · intro y hy hky
      rcases List.mem_append.mp hy with h1 | h2
      · exact hall y h1 hky
      · have hys : y = s := by simpa using h2
        subst hys
        exact absurd hky hne

/-- Upserting a row the table already holds (at its key) is a no-op. -/
theorem upsertBy_of_keyedAll {α : Type} (key : α → String) {rows : List α} {r : α}
    (hk : KeyedAll key rows r) : upsertBy key rows r = rows := by
  obtain ⟨⟨x, hx, hkx⟩, hall⟩ := hk
  unfold upsertBy
  rw [if_pos (List.any_eq_true.mpr ⟨x, hx, by simp [hkx]⟩)]
  apply map_id_of_eq
  intro y hy
  by_cases hky : key y = key r
  · simp only [hky, beq_self_eq_true, if_true]
    exact (hall y hy hky).symm
  · simp [hky]

/-- A payload whose rows are all already present leaves the table as is. -/
theorem upsertAllBy_fixed {α : Type} (key : α → String) {rows : List α}
    {payload : List α} (h : ∀ r ∈ payload, KeyedAll key rows r) :
    upsertAllBy key rows payload = rows := by
  induction payload with
  | nil => rfl
  | cons a P ih =>
      have ha : upsertBy key rows a = rows := upsertBy_of_keyedAll key (h a (by simp))
      show List.foldl (upsertBy key) (upsertBy key rows a) P = rows
      rw [ha]
      exact ih (fun r hr => h r (List.mem_cons_of_mem _ hr))

/-- `KeyedAll` survives upserting a payload of disjoint keys. -/
theorem keyedAll_upsertAllBy_preserve {α : Type} (key : α → String) {r : α}
    {P : List α} (hdis : ∀ s ∈ P, key s ≠ key r) :
    ∀ {rows : List α}, KeyedAll key rows r → KeyedAll key (upsertAllBy key rows P) r := by
  induction P with
  | nil => intro rows hk; exact hk
  | cons a Q ih =>
      intro rows hk
      have h1 : KeyedAll key (upsertBy key rows a) r :=
        keyedAll_upsertBy_other key a (hdis a (by simp)) hk
      exact ih (fun s hs => hdis s (List.mem_cons_of_mem _ hs)) h1

/-- After upserting a key-unique payload, every payload row governs all
rows at its key. -/
theorem keyedAll_upsertAllBy {α : Type} (key : α → String) {payload : List α} {r : α}
    (hnd : (payload.map key).Nodup) (hr : r ∈ payload) :
    ∀ rows : List α, KeyedAll key (upsertAllBy key rows payload) r := by
  induction payload with
  | nil => cases hr
  | cons a P ih =>
      intro rows
      simp only [List.map_cons, List.nodup_cons] at hnd
      rcases List.mem_cons.mp hr with h1 | h2
      · subst h1
        show KeyedAll key (upsertAllBy key (upsertBy key rows r) P) r
        refine keyedAll_upsertAllBy_preserve key ?_ (keyedAll_upsertBy_self key rows r)
        intro s hs he
        exact hnd.1 (he ▸ List.mem_map_of_mem key hs)
      · exact ih hnd.2 h2 (upsertBy key rows a)

/-- Upserting a key-unique payload twice equals upserting it once. -/
theorem upsertAllBy_idem {α : Type} (key : α → String) (rows payload : List α)
    (hnd : (payload.map key).Nodup) :
    upsertAllBy key (upsertAllBy key rows payload) payload =
      upsertAllBy key rows payload :=
  upsertAllBy_fixed key (fun _ hr => keyedAll_upsertAllBy key hnd hr rows)

/-! ## Trim and coalesce lemmas -/

/-- The head surviving `dropWhile p` does not satisfy `p`. -/
theorem dropWhile_head_false (p : Char → Bool) :
    ∀ (l : List Char) (a : Char), (l.dropWhile p).head? = some a → p a = false := by
  intro l
  induction l with
  | nil => intro a h; simp at h
  | cons c t ih =>
      intro a h
      by_cases hc : p c = true
      · rw [List.dropWhile_cons_of_pos hc] at h
        exact ih a h
      · rw [List.dropWhile_cons_of_neg hc] at h
        simp only [List.head?_cons, Option.some.injEq] at h
        subst h
        exact Bool.eq_false_iff.mpr hc

/-- `dropWhile` is the identity when the head already fails `p`. -/
theorem dropWhile_self {p : Char → Bool} {l : List Char}
    (h : ∀ a, l.head? = some a → p a = false) : l.dropWhile p = l := by
  cases l with
  | nil => rfl
  | cons c t =>
      have hc := h c rfl
      rw [List.dropWhile_cons_of_neg (by simp [hc])]

/-- A non-vanishing `dropWhile` keeps the last element. -/
theorem dropWhile_getLast? (p : Char → Bool) :
    ∀ (l : List Char), l.dropWhile p ≠ [] → (l.dropWhile p).getLast? = l.getLast? := by
  intro l
  induction l with
  | nil => intro h; rfl
  | cons c t ih =>
      intro h
      by_cases hc : p c = true
      · rw [List.dropWhile_cons_of_pos hc] at h ⊢
        cases t with
        | nil => exact absurd rfl h
        | cons b u =>
            rw [List.getLast?_cons_cons]
            exact ih h
      · rw [List.dropWhile_cons_of_neg hc]

/-- The head of a trimmed list is not whitespace. -/
theorem trimChars_head (l : List Char) (a : Char)
    (h : (trimChars l).head? = some a) : jsIsWs a = false := by
  unfold trimChars at h
  rw [List.head?_reverse] at h
  have hne : (l.dropWhile jsIsWs).reverse.dropWhile jsIsWs ≠ [] := by
    intro he
    rw [he] at h
    simp at h
  rw [dropWhile_getLast? jsIsWs _ hne, List.getLast?_reverse] at h
  exact dropWhile_head_false jsIsWs l a h

/-- The last element of a trimmed list is not whitespace. -/
theorem trimChars_last (l : List Char) (a : Char)
    (h : (trimChars l).getLast? = some a) : jsIsWs a = false := by
  unfold trimChars at h
  rw [List.getLast?_reverse] at h
  exact dropWhile_head_false jsIsWs _ a h

/-- Trimming is idempotent. -/
theorem trimChars_idem (l : List Char) : trimChars (trimChars l) = trimChars l := by
  have h1 : (trimChars l).dropWhile jsIsWs = trimChars l :=
    dropWhile_self (fun a ha => trimChars_head l a ha)
  have h2 : (trimChars l).reverse.dropWhile jsIsWs = (trimChars l).reverse := by
    apply dropWhile_self
    intro a ha
    rw [List.head?_reverse] at ha
    exact trimChars_last l a ha
  show ((((trimChars l).dropWhile jsIsWs).reverse).dropWhile jsIsWs).reverse = trimChars l
  rw [h1, h2, List.reverse_reverse]

/-- JS `trim` is idempotent. -/
theorem jsTrim_idem (s : String) : jsTrim (jsTrim s) = jsTrim s := by
  show String.mk (trimChars (trimChars s.toList)) = String.mk (trimChars s.toList)
  rw [trimChars_idem]

/-- `orNull` is idempotent. -/
theorem orNull_orNull (v : Option String) : orNull (orNull v) = orNull v := by
  cases v with
  | none => rfl
  | some s =>
      by_cases h : s = "" <;> simp [orNull, h]

/-- `orNull` never yields an empty string. -/
theorem orNull_ne (v : Option String) (s : String) (h : orNull v = some s) : s ≠ "" := by
  cases v with
  | none => simp [orNull] at h
  | some x =>
      by_cases hx : x = ""
      · simp [orNull, hx] at h
      · simp [orNull, hx] at h
        subst h
        exact hx

/-- `coalesce` of an `orNull`-stable existing value is `orNull`-stable. -/
theorem orNull_coalesce (v : Option String) {e : Option String}
    (he : orNull e = e) : orNull (coalesce v e) = coalesce v e := by
  cases v with
  | none => exact he
  | some s =>
      simp only [coalesce]
      by_cases h : jsTrim s = ""
      · simp only [h, ne_eq, not_true_eq_false, if_false]
        exact he
      · simp [h, orNull]

/-- `coalesce` is idempotent in the existing-value argument. -/
theorem coalesce_idem (v e : Option String) :
    coalesce v (coalesce v e) = coalesce v e := by
  cases v with
  | none => rfl
  | some s =>
      simp only [coalesce]
      by_cases h : jsTrim s = "" <;> simp [h]

/-- The core name decision, applied to its own output, is stable. -/
theorem nameToSaveCore_idem (wv inm : String) (hinm : inm ≠ "") (eN : Option String)
    (heN : orNull eN = eN) :
    nameToSaveCore wv inm (orNull (nameToSaveCore wv inm eN)) =
      nameToSaveCore wv inm eN := by
  cases eN with
  | none =>
      show nameToSaveCore wv inm (orNull (some inm)) = some inm
      rw [show orNull (some inm) = some inm by simp [orNull, hinm]]
      simp [nameToSaveCore]
  | some ex =>
      have hex : ex ≠ "" := by
        intro he
        rw [he] at heN
        simp [orNull] at heN
      simp only [nameToSaveCore]
      by_cases hc : isGenericBusinessName ex wv ∧
          scoreBusinessName ex wv < scoreBusinessName inm wv
      · rw [if_pos hc]
        rw [show orNull (some inm) = some inm by simp [orNull, hinm]]
        simp [nameToSaveCore]
      · rw [if_neg hc]
        rw [show orNull (some ex) = some ex by simp [orNull, hex]]
        simp only [nameToSaveCore]
        rw [if_neg hc]

/-- The profile-name decision is idempotent. -/
theorem nameToSave_idem (w im e : Option String) :
    nameToSave w im (nameToSave w im e) = nameToSave w im e := by
  have hgen : ∀ iN : Option String,
      coalesce iN (orNull (coalesce iN (orNull e))) = coalesce iN (orNull e) := by
    intro iN
    rw [orNull_coalesce _ (orNull_orNull e)]
    exact coalesce_idem iN (orNull e)
  unfold nameToSave
  rcases hw : orNull w with _ | wv <;> rcases him : orNull im with _ | inm
  · exact hgen none
  · exact hgen (some inm)
  · exact hgen none
  · exact nameToSaveCore_idem wv inm (orNull_ne im inm him) (orNull e) (orNull_orNull e)

/-- The `businesses.name` core update is idempotent on trimmed input. -/
theorem applyBusinessNameCore_idem (w : Option String) (nn : String)
    (b : Option String) (hnn : jsTrim nn = nn) :
    applyBusinessNameCore w nn (applyBusinessNameCore w nn b) =
      applyBusinessNameCore w nn b := by
  by_cases h0 : nn = ""
  · simp [applyBusinessNameCore, h0]
  by_cases hc : (bnDiffers nn (b.map jsTrim) && bnAllowed w nn (b.map jsTrim)) = true
  · have hinner : applyBusinessNameCore w nn b = some nn := by
      simp [applyBusinessNameCore, h0, hc]
    rw [hinner]
    have hdif : bnDiffers nn ((some nn).map jsTrim) = false := by
      simp [bnDiffers, hnn]
    simp [applyBusinessNameCore, h0, hdif]
  · have hinner : applyBusinessNameCore w nn b = b := by
      simp [applyBusinessNameCore, h0, hc]
    rw [hinner]
    exact hinner

/-- The `businesses.name` update is idempotent. -/
theorem applyBusinessName_idem (w dn b : Option String) :
    applyBusinessName w dn (applyBusinessName w dn b) = applyBusinessName w dn b := by
  cases dn with
  | none => rfl
  | some s => exact applyBusinessNameCore_idem w (jsTrim s) b (jsTrim_idem s)

/-! ## Dedup and lookup lemmas -/

/-- `getLast?` of a nonempty list whose elements all equal `r` is `r`. -/
theorem getLast?_of_all_eq {α : Type} {l : List α} {r : α}
    (hne : l ≠ []) (hall : ∀ y ∈ l, y = r) : l.getLast? = some r := by
  induction l with
  | nil => exact absurd rfl hne
  | cons a t ih =>
      cases t with
      | nil => simpa using hall a (by simp)
      | cons b u =>
          rw [List.getLast?_cons_cons]
          exact ih (by simp) (fun y hy => hall y (List.mem_cons_of_mem _ hy))

/-- A `getLast?` value is a member. -/
theorem mem_of_getLast? {α : Type} : ∀ {l : List α} {a : α}, l.getLast? = some a → a ∈ l := by
  intro l
  induction l with
  | nil => intro a h; simp at h
  | cons c t ih =>
      intro a h
      cases t with
      | nil =>
          simp only [List.getLast?_singleton, Option.some.injEq] at h
          simp [h]
      | cons b u =>
          rw [List.getLast?_cons_cons] at h
          exact List.mem_cons_of_mem _ (ih h)

/-- When all rows carrying a key equal `r`, the last-wins lookup finds `r`. -/
theorem lookupLast_of_keyedAll {rows : List ServiceRow} {r : ServiceRow}
    (hk : KeyedAll slugKey rows r) : lookupLastBySlug rows r.slug = some r := by
  obtain ⟨⟨x, hx, hkx⟩, hall⟩ := hk
  unfold lookupLastBySlug
  apply getLast?_of_all_eq
  · have hxs : x.slug = r.slug := hkx
    exact List.ne_nil_of_mem (List.mem_filter.mpr ⟨hx, by simp [hxs]⟩)
  · intro y hy
    obtain ⟨hyr, hys⟩ := List.mem_filter.mp hy
    exact hall y hyr (by simpa using hys)

/-- In a slug-unique table the last-wins lookup finds the unique row. -/
theorem lookupLast_nodup {rows : List ServiceRow} {e : ServiceRow}
    (hnd : (rows.map slugKey).Nodup) (he : e ∈ rows) :
    lookupLastBySlug rows e.slug = some e := by
  unfold lookupLastBySlug
  apply getLast?_of_all_eq
  · exact List.ne_nil_of_mem (List.mem_filter.mpr ⟨he, by simp⟩)
  · intro y hy
    obtain ⟨hyr, hys⟩ := List.mem_filter.mp hy
    have hse : slugKey y = slugKey e := by simpa using hys
    exact List.inj_on_of_nodup_map hnd hyr he hse

/-- A nonempty list has a last element. -/
theorem exists_getLast?_of_ne_nil {α : Type} :
    ∀ {l : List α}, l ≠ [] → ∃ a, l.getLast? = some a := by
  intro l
  induction l with
  | nil => intro h; exact absurd rfl h
  | cons c t ih =>
      intro _
      cases t with
      | nil => exact ⟨c, rfl⟩
      | cons b u =>
          obtain ⟨a, ha⟩ := ih (by simp)
          exact ⟨a, by rw [List.getLast?_cons_cons]; exact ha⟩

/-- Bool `contains` on string lists agrees with membership. -/
theorem containsS_iff (l : List String) (a : String) : l.contains a = true ↔ a ∈ l := by
  show l.elem a = true ↔ a ∈ l
  exact List.elem_iff

/-- The value emitted for the first occurrence of a slug: it belongs to
the list and carries that slug. -/
theorem dedup_emit_spec (r : ServiceRow) (rest : List ServiceRow) :
    (((r :: rest).filter (fun x => x.slug == r.slug)).getLast?.getD r) ∈ r :: rest ∧
    (((r :: rest).filter (fun x => x.slug == r.slug)).getLast?.getD r).slug = r.slug := by
  have hrmem : r ∈ (r :: rest).filter (fun x => x.slug == r.slug) :=
    List.mem_filter.mpr ⟨by simp, by simp⟩
  rcases h : ((r :: rest).filter (fun x => x.slug == r.slug)).getLast? with _ | y
  · obtain ⟨a, ha⟩ := exists_getLast?_of_ne_nil (List.ne_nil_of_mem hrmem)
    rw [ha] at h
    cases h
  · have hy := mem_of_getLast? h
    obtain ⟨hmem, hslug⟩ := List.mem_filter.mp hy
    simp only [h, Option.getD_some]
    exact ⟨hmem, by simpa using hslug⟩

/-- Deduplication only keeps rows of the input. -/
theorem dedupGo_sub : ∀ (l : List ServiceRow) (seen : List String) (x : ServiceRow),
    x ∈ dedupBySlugGo l seen → x ∈ l := by
  intro l
  induction l with
  | nil => intro seen x hx; simp [dedupBySlugGo] at hx
  | cons r rest ih =>
      intro seen x hx
      unfold dedupBySlugGo at hx
      by_cases hc : seen.contains r.slug = true
      · rw [if_pos hc] at hx
        exact List.mem_cons_of_mem _ (ih seen x hx)
      · rw [if_neg hc] at hx
        rcases List.mem_cons.mp hx with h1 | h2
        · rw [h1]
          exact (dedup_emit_spec r rest).1
        · exact List.mem_cons_of_mem _ (ih _ x h2)

/-- Every deduplicated row's slug avoids the `seen` accumulator. -/
theorem dedupGo_notin_seen : ∀ (l : List ServiceRow) (seen : List String)
    (x : ServiceRow), x ∈ dedupBySlugGo l seen → x.slug ∉ seen := by
  intro l
  induction l with
  | nil => intro seen x hx; simp [dedupBySlugGo] at hx
  | cons r rest ih =>
      intro seen x hx
      unfold dedupBySlugGo at hx
      by_cases hc : seen.contains r.slug = true
      · rw [if_pos hc] at hx
        exact ih seen x hx
      · rw [if_neg hc] at hx
        rcases List.mem_cons.mp hx with h1 | h2
        · rw [h1, (dedup_emit_spec r rest).2]
          intro hmem
          exact hc ((containsS_iff seen r.slug).mpr hmem)
        · have := ih _ x h2
          intro hmem
          exact this (List.mem_cons_of_mem _ hmem)

/-- Deduplicated slugs are pairwise distinct. -/
theorem dedupGo_keys_nodup : ∀ (l : List ServiceRow) (seen : List String),
    ((dedupBySlugGo l seen).map slugKey).Nodup := by
  intro l
  induction l with
  | nil => intro seen; simp [dedupBySlugGo]
  | cons r rest ih =>
      intro seen
      unfold dedupBySlugGo
      by_cases hc : seen.contains r.slug = true
      · rw [if_pos hc]
        exact ih seen
      · rw [if_neg hc]
        simp only [List.map_cons, List.nodup_cons]
        constructor
        · intro hmem
          obtain ⟨y, hy, hslug⟩ := List.mem_map.mp hmem
          have hnot := dedupGo_notin_seen rest (r.slug :: seen) y hy
          simp only [slugKey] at hslug
          rw [(dedup_emit_spec r rest).2] at hslug
          exact hnot (by rw [hslug]; simp)
        · exact ih (r.slug :: seen)

/-- Every input slug not filtered by `seen` survives deduplication. -/
theorem dedupGo_complete : ∀ (l : List ServiceRow) (seen : List String)
    (r : ServiceRow), r ∈ l →
    r.slug ∈ seen ∨ ∃ x ∈ dedupBySlugGo l seen, x.slug = r.slug := by
  intro l
  induction l with
  | nil => intro seen r hr; simp at hr
  | cons a rest ih =>
      intro seen r hr
      unfold dedupBySlugGo
      by_cases hc : seen.contains a.slug = true
      · rw [if_pos hc]
        rcases List.mem_cons.mp hr with h1 | h2
        · subst h1
          exact Or.inl ((containsS_iff seen r.slug).mp hc)
        · exact ih seen r h2
      · rw [if_neg hc]
        rcases List.mem_cons.mp hr with h1 | h2
        · subst h1
          refine Or.inr ⟨((r :: rest).filter (fun x => x.slug == r.slug)).getLast?.getD r,
            by simp, (dedup_emit_spec r rest).2⟩
        · rcases ih (a.slug :: seen) r h2 with h3 | ⟨x, hx, hxs⟩
          · rcases List.mem_cons.mp h3 with h4 | h5
            · refine Or.inr ⟨((a :: rest).filter (fun x => x.slug == a.slug)).getLast?.getD a,
                by simp, ?_⟩
              rw [h4]
              exact (dedup_emit_spec a rest).2
            · exact Or.inl h5
          · exact Or.inr ⟨x, List.mem_cons_of_mem _ hx, hxs⟩

/-- `dedupBySlug` keeps only input rows. -/
theorem dedup_sub {rows : List ServiceRow} {x : ServiceRow}
    (hx : x ∈ dedupBySlug rows) : x ∈ rows :=
  dedupGo_sub rows [] x hx

/-- `dedupBySlug` has pairwise distinct slugs. -/
theorem dedup_keys_nodup (rows : List ServiceRow) :
    ((dedupBySlug rows).map slugKey).Nodup :=
  dedupGo_keys_nodup rows []

/-- Every input slug survives `dedupBySlug`. -/
theorem dedup_complete {rows : List ServiceRow} {r : ServiceRow} (hr : r ∈ rows) :
    ∃ x ∈ dedupBySlug rows, x.slug = r.slug := by
  rcases dedupGo_complete rows [] r hr with h | h
  · simp at h
  · exact h

/-- Every raw payload row's bookable flag is the lookup at its slug. -/
theorem rawServices_bookable {ex : List ServiceRow} {svcs : List ImportedService} :
    ∀ p ∈ rawServices ex svcs, p.is_bookable = bookFor ex p.slug := by
  intro p hp
  obtain ⟨pair, hpair, heq⟩ := List.mem_map.mp hp
  subst heq
  rfl

/-! ## Reconciler projections -/

/-- `businesses.name` after reconciliation. -/
theorem applyImported_businessName (st : DbState) (d : ImportedData) :
    (applyImportedBusinessData st d).businessName =
      applyBusinessName d.profile.website d.profile.name st.businessName := rfl

/-- The `business_profile` row after reconciliation. -/
theorem applyImported_profile (st : DbState) (d : ImportedData) :
    (applyImportedBusinessData st d).profile =
      some { name := nameToSave d.profile.website d.profile.name
               (st.profile.bind (fun x => x.name))
             address := coalesce d.profile.address (st.profile.bind (fun x => x.address))
             phone := coalesce d.profile.phone (st.profile.bind (fun x => x.phone))
             email := coalesce d.profile.email (st.profile.bind (fun x => x.email))
             website_url := coalesce d.profile.website
               (st.profile.bind (fun x => x.website_url)) } := rfl

/-- The services table after reconciliation. -/
theorem applyImported_services (st : DbState) (d : ImportedData) :
    (applyImportedBusinessData st d).services =
      if d.services.isEmpty then st.services
      else upsertAllBy slugKey st.services
        (dedupBySlug (rawServices st.services d.services)) := rfl

/-- The opening-hours table after reconciliation. -/
theorem applyImported_hours (st : DbState) (d : ImportedData) :
    (applyImportedBusinessData st d).hours =
      if (validHours d.openingHours).isEmpty then st.hours
      else upsertAllBy hourKey st.hours (hourPayload (validHours d.openingHours)) := rfl

/-- Two states with equal components are equal. -/
theorem dbStateExt {a b : DbState} (h1 : a.businessName = b.businessName)
    (h2 : a.profile = b.profile) (h3 : a.services = b.services)
    (h4 : a.hours = b.hours) : a = b := by
  cases a
  cases b
  simp_all

/-! ## Crawl loop lemmas -/

/-- Appending a fresh element preserves `Nodup`. -/
theorem nodup_snoc {α : Type} {l : List α} {a : α} (h : l.Nodup) (ha : a ∉ l) :
    (l ++ [a]).Nodup := by
  rw [List.nodup_append]
  exact ⟨h, List.nodup_singleton a, fun x hx hxa => ha (by
    have : x = a := by simpa using hxa
    rw [← this]
    exact hx)⟩

/-- Unfolding the loop at a nonempty queue. -/
theorem crawlLoop_cons (cfg : CrawlConfig) (fuel : Nat) {s : CrawlState}
    {t : CrawlTask} {rest : List CrawlTask} (hq : s.queue = t :: rest) :
    crawlLoop cfg (fuel + 1) s =
      if s.pagesCrawled < cfg.maxPages then
        crawlLoop cfg fuel (processTask cfg t
          { s with queue := rest, dequeued := s.dequeued ++ [t.url] })
      else s := by
  conv_lhs => rw [crawlLoop]
  rw [hq]

/-- Unfolding the loop at an empty queue. -/
theorem crawlLoop_nil (cfg : CrawlConfig) (fuel : Nat) {s : CrawlState}
    (hq : s.queue = []) : crawlLoop cfg (fuel + 1) s = s := by
  conv_lhs => rw [crawlLoop]
  rw [hq]

/-- One step changes the page counter by at most one. -/
theorem processTask_pages_le (cfg : CrawlConfig) (t : CrawlTask) (s : CrawlState) :
    (processTask cfg t s).pagesCrawled ≤ s.pagesCrawled + 1 := by
  unfold processTask
  split
  · exact Nat.le_succ _
  · split
    · exact Nat.le_succ _
    · exact Nat.le_succ _
    · split
      · exact Nat.le_succ _
      · split
        · exact Nat.le_refl _
        · exact Nat.le_refl _

/-- The loop never pushes the page counter past `maxPages`. -/
theorem crawlLoop_pages_le (cfg : CrawlConfig) :
    ∀ (fuel : Nat) (s : CrawlState), s.pagesCrawled ≤ cfg.maxPages →
      (crawlLoop cfg fuel s).pagesCrawled ≤ cfg.maxPages := by
  intro fuel
  induction fuel with
  | zero => intro s h; exact h
  | succ f ih =>
      intro s h
      rcases hq : s.queue with _ | ⟨t, rest⟩
      · rw [crawlLoop_nil cfg f hq]
        exact h
      · rw [crawlLoop_cons cfg f hq]
        by_cases hb : s.pagesCrawled < cfg.maxPages
        · rw [if_pos hb]
          apply ih
          have := processTask_pages_le cfg t
            { s with queue := rest, dequeued := s.dequeued ++ [t.url] }
          simp only at this
          omega
        · rw [if_neg hb]
          exact h

/-- Seeding does not touch the counters or traces. -/
theorem enqueueInit_frame (cfg : CrawlConfig) (s : CrawlState) (u : String)
    (d : Nat) (f : Bool) :
    (enqueueInit cfg s u d f).visited = s.visited ∧
    (enqueueInit cfg s u d f).renderTrace = s.renderTrace ∧
    (enqueueInit cfg s u d f).emitted = s.emitted ∧
    (enqueueInit cfg s u d f).pagesCrawled = s.pagesCrawled ∧
    (enqueueInit cfg s u d f).dequeued = s.dequeued := by
  unfold enqueueInit
  split
  · exact ⟨rfl, rfl, rfl, rfl, rfl⟩
  · split
    · exact ⟨rfl, rfl, rfl, rfl, rfl⟩
    · split
      · exact ⟨rfl, rfl, rfl, rfl, rfl⟩
      · exact ⟨rfl, rfl, rfl, rfl, rfl⟩

/-- One-step unfolding of the seeding fold. -/
theorem foldInit_cons (cfg : CrawlConfig) (d : Nat) (f : Bool) (a : String)
    (t : List String) (s : CrawlState) :
    (a :: t).foldl (fun s u => enqueueInit cfg s u d f) s =
      t.foldl (fun s u => enqueueInit cfg s u d f) (enqueueInit cfg s a d f) := rfl

/-- Folding the seeder preserves the counters and traces. -/
theorem foldInit_frame (cfg : CrawlConfig) (d : Nat) (f : Bool) :
    ∀ (l : List String) (s : CrawlState),
      (l.foldl (fun s u => enqueueInit cfg s u d f) s).visited = s.visited ∧
      (l.foldl (fun s u => enqueueInit cfg s u d f) s).renderTrace = s.renderTrace ∧
      (l.foldl (fun s u => enqueueInit cfg s u d f) s).emitted = s.emitted ∧
      (l.foldl (fun s u => enqueueInit cfg s u d f) s).pagesCrawled = s.pagesCrawled ∧
      (l.foldl (fun s u => enqueueInit cfg s u d f) s).dequeued = s.dequeued := by
  intro l
  induction l with
  | nil => intro s; exact ⟨rfl, rfl, rfl, rfl, rfl⟩
  | cons a t ih =>
      intro s
      have h1 := enqueueInit_frame cfg s a d f
      have h2 := ih (enqueueInit cfg s a d f)
      rw [foldInit_cons]
      exact ⟨h2.1.trans h1.1, (h2.2.1).trans h1.2.1, (h2.2.2.1).trans h1.2.2.1,
        (h2.2.2.2.1).trans h1.2.2.2.1, (h2.2.2.2.2).trans h1.2.2.2.2⟩

/-- The seeded state starts with empty traces and a zero page counter. -/
theorem initState_frame (cfg : CrawlConfig) :
    (initState cfg).visited = [] ∧ (initState cfg).renderTrace = [] ∧
    (initState cfg).emitted = [] ∧ (initState cfg).pagesCrawled = 0 ∧
    (initState cfg).dequeued = [] := by
  unfold initState
  have h3 := foldInit_frame cfg 1 false cfg.sitemapUrls
    (cfg.forcedUrls.foldl (fun s u => enqueueInit cfg s u 1 true)
      (enqueueInit cfg ⟨[], [], [], 0, 0, [], [], []⟩ cfg.baseUrl 0 false))
  have h2 := foldInit_frame cfg 1 true cfg.forcedUrls
    (enqueueInit cfg ⟨[], [], [], 0, 0, [], [], []⟩ cfg.baseUrl 0 false)
  have h1 := enqueueInit_frame cfg ⟨[], [], [], 0, 0, [], [], []⟩ cfg.baseUrl 0 false
  rw [h3.1, h3.2.1, h3.2.2.1, h3.2.2.2.1, h3.2.2.2.2,
    h2.1, h2.2.1, h2.2.2.1, h2.2.2.2.1, h2.2.2.2.2,
    h1.1, h1.2.1, h1.2.2.1, h1.2.2.2.1, h1.2.2.2.2]
  exact ⟨rfl, rfl, rfl, rfl, rfl⟩

/-- One step preserves the dedup invariant. -/
theorem processTask_inv5 (cfg : CrawlConfig) (t : CrawlTask) (s : CrawlState)
    (h : Inv5 s) : Inv5 (processTask cfg t s) := by
  obtain ⟨hv, ht, hsub, hem⟩ := h
  unfold processTask
  by_cases hg : (s.visited.contains (cfg.normalize t.url) ||
      decide (cfg.maxDepth < t.depth)) = true
  · rw [if_pos hg]
    exact ⟨hv, ht, hsub, hem⟩
  · rw [if_neg hg]
    have hnu : cfg.normalize t.url ∉ s.visited := by
      intro hmem
      have hb : s.visited.contains (cfg.normalize t.url) = true :=
        (containsS_iff _ _).mpr hmem
      exact hg (by rw [hb]; rfl)
    have hnt : cfg.normalize t.url ∉ s.renderTrace := fun hmem => hnu (hsub _ hmem)
    have hv1 : (cfg.normalize t.url :: s.visited).Nodup := List.nodup_cons.mpr ⟨hnu, hv⟩
    have ht1 : (s.renderTrace ++ [cfg.normalize t.url]).Nodup := nodup_snoc ht hnt
    have hsub1 : ∀ u ∈ s.renderTrace ++ [cfg.normalize t.url],
        u ∈ cfg.normalize t.url :: s.visited := by
      intro u hu
      rcases List.mem_append.mp hu with h1 | h2
      · exact List.mem_cons_of_mem _ (hsub u h1)
      · simp at h2
        simp [h2]
    have hem1 : s.emitted.Sublist (s.renderTrace ++ [cfg.normalize t.url]) :=
      hem.trans (List.sublist_append_left _ _)
    have hem2 : (s.emitted ++ [cfg.normalize t.url]).Sublist
        (s.renderTrace ++ [cfg.normalize t.url]) :=
      List.Sublist.append hem (List.Sublist.refl _)
    have hi1 : Inv5 (stRendered cfg t s) := ⟨hv1, ht1, hsub1, hem1⟩
    have hi2 : Inv5 (stEmitted cfg t s) := ⟨hv1, ht1, hsub1, hem2⟩
    have hi3 : Inv5 (stCounted cfg t s) := ⟨hv1, ht1, hsub1, hem2⟩
    have hi4 : Inv5 (stDiscovered cfg t s) := ⟨hv1, ht1, hsub1, hem2⟩
    split
    · exact hi1
    · exact hi1
    · split
      · exact hi2
      · split
        · exact hi4
        · exact hi3

/-- The loop preserves the dedup invariant. -/
theorem crawlLoop_inv5 (cfg : CrawlConfig) :
    ∀ (fuel : Nat) (s : CrawlState), Inv5 s → Inv5 (crawlLoop cfg fuel s) := by
  intro fuel
  induction fuel with
  | zero => intro s h; exact h
  | succ f ih =>
      intro s h
      rcases hq : s.queue with _ | ⟨t, rest⟩
      · rw [crawlLoop_nil cfg f hq]
        exact h
      · rw [crawlLoop_cons cfg f hq]
        by_cases hb : s.pagesCrawled < cfg.maxPages
        · rw [if_pos hb]
          apply ih
          apply processTask_inv5
          exact ⟨h.1, h.2.1, h.2.2.1, h.2.2.2⟩
        · rw [if_neg hb]
          exact h

/-! ## Priority dequeue order (C4) -/

/-- A URL never appearing in the trace is trivially preceded. -/
theorem tracePrec_of_not_mem {tr : List String} {p n : String} (h : n ∉ tr) :
    tracePrec tr p n := by
  intro k hk
  exact absurd (List.take_subset k tr hk) h

/-- Appending a URL other than `n` preserves precedence. -/
theorem tracePrec_snoc {l : List String} {p n : String} (h : tracePrec l p n)
    {a : String} (ha : a ≠ n) : tracePrec (l ++ [a]) p n := by
  intro k hk
  by_cases hle : k ≤ l.length
  · rw [List.take_append_of_le_length hle] at hk ⊢
    exact h k hk
  · have hfull : (l ++ [a]).take k = l ++ [a] := by
      apply List.take_of_length_le
      simp only [List.length_append, List.length_cons, List.length_nil]
      omega
    rw [hfull] at hk ⊢
    have hnl : n ∈ l := by
      rcases List.mem_append.mp hk with h1 | h2
      · exact h1
      · have he : n = a := by simpa using h2
        exact absurd he.symm ha
    have hpl : p ∈ l := by
      have h2 := h l.length (by rw [List.take_length]; exact hnl)
      rw [List.take_length] at h2
      exact h2
    exact List.mem_append_left _ hpl

/-- Appending `n` itself when `p` is already in the trace establishes
precedence. -/
theorem tracePrec_snoc_self {l : List String} {p n : String} (hp : p ∈ l)
    (hn : n ∉ l) : tracePrec (l ++ [n]) p n := by
  intro k hk
  by_cases hle : k ≤ l.length
  · rw [List.take_append_of_le_length hle] at hk
    exact absurd (List.take_subset k l hk) hn
  · have hfull : (l ++ [n]).take k = l ++ [n] := by
      apply List.take_of_length_le
      simp only [List.length_append, List.length_cons, List.length_nil]
      omega
    rw [hfull]
    exact List.mem_append_left _ hp

/-- Queue order survives enqueueing at both ends. -/
theorem inQueueBefore_extend {q : List CrawlTask} {p n : String}
    (P N : List CrawlTask) (h : inQueueBefore q p n) :
    inQueueBefore (P ++ q ++ N) p n := by
  obtain ⟨l1, l2, l3, heq⟩ := h
  refine ⟨P.map (fun a => a.url) ++ l1, l2, l3 ++ N.map (fun a => a.url), ?_⟩
  rw [List.map_append, List.map_append, heq]
  simp

/-- One enqueue attempt preserves enqueue-state well-formedness. -/
theorem enqStep_wf (cfg : CrawlConfig) (visited : List String) (front : Bool)
    (d1 : Nat) (dequeued : List String) (st : EnqSt) (link : String)
    (h : EnqWF dequeued st) : EnqWF dequeued (enqStep cfg visited front d1 st link) := by
  obtain ⟨h1, h2, h3, h4⟩ := h
  by_cases hcap : st.queue.length < 400 ∧ st.added < 50 ∧ d1 ≤ cfg.maxDepth
  · by_cases hnew : (!visited.contains link && !st.seen.contains link) = true
    · have hlseen : link ∉ st.seen := by
        intro hmem
        have hc : st.seen.contains link = true := (containsS_iff _ _).mpr hmem
        rw [hc] at hnew
        simp at hnew
      have hq : link ∉ st.queue.map (fun a => a.url) := fun hm => hlseen (h2 _ hm)
      have hd : link ∉ dequeued := fun hm => hlseen (h4 _ hm)
      have hstep : enqStep cfg visited front d1 st link =
          ⟨(if front then ⟨link, d1, front⟩ :: st.queue
            else st.queue ++ [⟨link, d1, front⟩]), link :: st.seen, st.added + 1⟩ := by
        unfold enqStep
        rw [if_pos hcap, if_pos hnew]
      rw [hstep]
      cases front
      · refine ⟨?_, ?_, ?_, ?_⟩
        · show ((st.queue ++ [(⟨link, d1, false⟩ : CrawlTask)]).map
            (fun a => a.url)).Nodup
          rw [List.map_append]
          exact nodup_snoc h1 hq
        · show ∀ u ∈ (st.queue ++ [(⟨link, d1, false⟩ : CrawlTask)]).map
            (fun a => a.url), u ∈ link :: st.seen
          intro u hu
          rw [List.map_append] at hu
          rcases List.mem_append.mp hu with hx | hx
          · exact List.mem_cons_of_mem _ (h2 u hx)
          · have : u = link := by simpa using hx
            simp [this]
        · show ∀ u ∈ (st.queue ++ [(⟨link, d1, false⟩ : CrawlTask)]).map
            (fun a => a.url), u ∉ dequeued
          intro u hu
          rw [List.map_append] at hu
          rcases List.mem_append.mp hu with hx | hx
          · exact h3 u hx
          · have : u = link := by simpa using hx
            rw [this]; exact hd
        · intro u hu
          exact List.mem_cons_of_mem _ (h4 u hu)
      · refine ⟨?_, ?_, ?_, ?_⟩
        · show (((⟨link, d1, true⟩ : CrawlTask) :: st.queue).map
            (fun a => a.url)).Nodup
          rw [List.map_cons]
          exact List.nodup_cons.mpr ⟨hq, h1⟩
        · show ∀ u ∈ ((⟨link, d1, true⟩ : CrawlTask) :: st.queue).map
            (fun a => a.url), u ∈ link :: st.seen
          intro u hu
          rw [List.map_cons] at hu
          rcases List.mem_cons.mp hu with hx | hx
          · simp [hx]
          · exact List.mem_cons_of_mem _ (h2 u hx)
        · show ∀ u ∈ ((⟨link, d1, true⟩ : CrawlTask) :: st.queue).map
            (fun a => a.url), u ∉ dequeued
          intro u hu
          rw [List.map_cons] at hu
          rcases List.mem_cons.mp hu with hx | hx
          · rw [hx]; exact hd
          · exact h3 u hx
        · intro u hu
          exact List.mem_cons_of_mem _ (h4 u hu)
    · have hstep : enqStep cfg visited front d1 st link = st := by
        unfold enqStep
        rw [if_pos hcap, if_neg hnew]
      rw [hstep]
      exact ⟨h1, h2, h3, h4⟩
  · have hstep : enqStep cfg visited front d1 st link = st := by
      unfold enqStep
      rw [if_neg hcap]
    rw [hstep]
    exact ⟨h1, h2, h3, h4⟩

/-- The enqueue fold preserves enqueue-state well-formedness. -/
theorem enqFold_wf (cfg : CrawlConfig) (visited : List String) (front : Bool)
    (d1 : Nat) (dequeued : List String) :
    ∀ (links : List String) (st : EnqSt), EnqWF dequeued st →
      EnqWF dequeued (links.foldl (enqStep cfg visited front d1) st) := by
  intro links
  induction links with
  | nil => intro st h; exact h
  | cons l ls ih =>
      intro st h
      rw [List.foldl_cons]
      exact ih _ (enqStep_wf cfg visited front d1 dequeued st l h)

/-- Front enqueueing only prepends fresh tasks drawn from the link list. -/
theorem enqFoldFront_decomp (cfg : CrawlConfig) (visited : List String) (d1 : Nat) :
    ∀ (links : List String) (st : EnqSt),
      ∃ P : List CrawlTask,
        (links.foldl (enqStep cfg visited true d1) st).queue = P ++ st.queue ∧
        (∀ a ∈ P, a.url ∈ links ∧ a.url ∉ st.seen) ∧
        (∀ u ∈ st.seen, u ∈ (links.foldl (enqStep cfg visited true d1) st).seen) := by
  intro links
  induction links with
  | nil =>
      intro st
      exact ⟨[], rfl, by simp, fun u hu => hu⟩
  | cons l ls ih =>
      intro st
      rw [List.foldl_cons]
      by_cases hcap : st.queue.length < 400 ∧ st.added < 50 ∧ d1 ≤ cfg.maxDepth
      · by_cases hnew : (!visited.contains l && !st.seen.contains l) = true
        · have hstep : enqStep cfg visited true d1 st l =
              ⟨⟨l, d1, true⟩ :: st.queue, l :: st.seen, st.added + 1⟩ := by
            unfold enqStep
            rw [if_pos hcap, if_pos hnew]
            rfl
          have hlseen : l ∉ st.seen := by
            intro hmem
            have hc : st.seen.contains l = true := (containsS_iff _ _).mpr hmem
            rw [hc] at hnew
            simp at hnew
          obtain ⟨P, hq, hP, hs⟩ := ih (enqStep cfg visited true d1 st l)
          refine ⟨P ++ [⟨l, d1, true⟩], ?_, ?_, ?_⟩
          · rw [hq, hstep]
            simp
          · intro a ha
            rcases List.mem_append.mp ha with hx | hx
            · obtain ⟨hxa, hxb⟩ := hP a hx
              rw [hstep] at hxb
              exact ⟨List.mem_cons_of_mem _ hxa,
                fun hy => hxb (List.mem_cons_of_mem _ hy)⟩
            · have : a = ⟨l, d1, true⟩ := by simpa using hx
              rw [this]
              exact ⟨List.mem_cons_self _ _, hlseen⟩
          · intro u hu
            apply hs
            rw [hstep]
            exact List.mem_cons_of_mem _ hu
        · have hstep : enqStep cfg visited true d1 st l = st := by
            unfold enqStep
            rw [if_pos hcap, if_neg hnew]
          rw [hstep]
          obtain ⟨P, hq, hP, hs⟩ := ih st
          exact ⟨P, hq,
            fun a ha => ⟨List.mem_cons_of_mem _ (hP a ha).1, (hP a ha).2⟩, hs⟩
      · have hstep : enqStep cfg visited true d1 st l = st := by
          unfold enqStep
          rw [if_neg hcap]
        rw [hstep]
        obtain ⟨P, hq, hP, hs⟩ := ih st
        exact ⟨P, hq,
          fun a ha => ⟨List.mem_cons_of_mem _ (hP a ha).1, (hP a ha).2⟩, hs⟩

/-- Back enqueueing only appends fresh tasks drawn from the link list. -/
theorem enqFoldBack_decomp (cfg : CrawlConfig) (visited : List String) (d1 : Nat) :
    ∀ (links : List String) (st : EnqSt),
      ∃ N : List CrawlTask,
        (links.foldl (enqStep cfg visited false d1) st).queue = st.queue ++ N ∧
        (∀ a ∈ N, a.url ∈ links ∧ a.url ∉ st.seen) ∧
        (∀ u ∈ st.seen, u ∈ (links.foldl (enqStep cfg visited false d1) st).seen) := by
  intro links
  induction links with
  | nil =>
      intro st
      exact ⟨[], by simp, by simp, fun u hu => hu⟩
  | cons l ls ih =>
      intro st
      rw [List.foldl_cons]
      by_cases hcap : st.queue.length < 400 ∧ st.added < 50 ∧ d1 ≤ cfg.maxDepth
      · by_cases hnew : (!visited.contains l && !st.seen.contains l) = true
        · have hstep : enqStep cfg visited false d1 st l =
              ⟨st.queue ++ [⟨l, d1, false⟩], l :: st.seen, st.added + 1⟩ := by
            unfold enqStep
            rw [if_pos hcap, if_pos hnew]
            rfl
          have hlseen : l ∉ st.seen := by
            intro hmem
            have hc : st.seen.contains l = true := (containsS_iff _ _).mpr hmem
            rw [hc] at hnew
            simp at hnew
          obtain ⟨N, hq, hN, hs⟩ := ih (enqStep cfg visited false d1 st l)
          refine ⟨⟨l, d1, false⟩ :: N, ?_, ?_, ?_⟩
          · rw [hq, hstep]
            simp
          · intro a ha
            rcases List.mem_cons.mp ha with hx | hx
            · rw [hx]
              exact ⟨List.mem_cons_self _ _, hlseen⟩
            · obtain ⟨hxa, hxb⟩ := hN a hx
              rw [hstep] at hxb
              exact ⟨List.mem_cons_of_mem _ hxa,
                fun hy => hxb (List.mem_cons_of_mem _ hy)⟩
          · intro u hu
            apply hs
            rw [hstep]
            exact List.mem_cons_of_mem _ hu
        · have hstep : enqStep cfg visited false d1 st l = st := by
            unfold enqStep
            rw [if_pos hcap, if_neg hnew]
          rw [hstep]
          obtain ⟨N, hq, hN, hs⟩ := ih st
          exact ⟨N, hq,
            fun a ha => ⟨List.mem_cons_of_mem _ (hN a ha).1, (hN a ha).2⟩, hs⟩
      · have hstep : enqStep cfg visited false d1 st l = st := by
          unfold enqStep
          rw [if_neg hcap]
        rw [hstep]
        obtain ⟨N, hq, hN, hs⟩ := ih st
        exact ⟨N, hq,
          fun a ha => ⟨List.mem_cons_of_mem _ (hN a ha).1, (hN a ha).2⟩, hs⟩

/-- `addLinks` decomposes the queue into fresh priority tasks in front,
the old queue, and fresh normal tasks at the back. -/
theorem addLinks_decomp (cfg : CrawlConfig) (visited : List String) (depth : Nat)
    (prio norm : List String) (q : List CrawlTask) (seen : List String) :
    ∃ P N : List CrawlTask,
      (addLinks cfg visited depth prio norm q seen).queue = P ++ q ++ N ∧
      (∀ a ∈ P, a.url ∈ prio ∧ a.url ∉ seen) ∧
      (∀ a ∈ N, a.url ∈ norm ∧ a.url ∉ seen) := by
  obtain ⟨P, hPq, hP, hPs⟩ :=
    enqFoldFront_decomp cfg visited (depth + 1) prio ⟨q, seen, 0⟩
  obtain ⟨N, hNq, hN, hNs⟩ :=
    enqFoldBack_decomp cfg visited (depth + 1) norm
      (prio.foldl (enqStep cfg visited true (depth + 1)) ⟨q, seen, 0⟩)
  refine ⟨P, N, ?_, ?_, ?_⟩
  · unfold addLinks
    rw [hNq, hPq]
  · intro a ha
    exact hP a ha
  · intro a ha
    obtain ⟨h1, h2⟩ := hN a ha
    exact ⟨h1, fun hx => h2 (hPs _ hx)⟩

/-- `addLinks` preserves well-formedness. -/
theorem addLinks_wf (cfg : CrawlConfig) (visited : List String) (depth : Nat)
    (prio norm : List String) (q : List CrawlTask) (seen dequeued : List String)
    (h : EnqWF dequeued ⟨q, seen, 0⟩) :
    EnqWF dequeued (addLinks cfg visited depth prio norm q seen) := by
  unfold addLinks
  exact enqFold_wf cfg visited false (depth + 1) dequeued norm _
    (enqFold_wf cfg visited true (depth + 1) dequeued prio _ h)

/-- Processing a task never touches the dequeue trace. -/
theorem processTask_dequeued (cfg : CrawlConfig) (t : CrawlTask) (s : CrawlState) :
    (processTask cfg t s).dequeued = s.dequeued := by
  unfold processTask
  split
  · rfl
  · split
    · rfl
    · rfl
    · split
      · rfl
      · split
        · rfl
        · rfl

/-- Processing a task yields a queue of the shape `fresh priority ++ old
queue ++ fresh normal`. -/
theorem processTask_queue_shape (cfg : CrawlConfig) (t : CrawlTask) (s : CrawlState) :
    ∃ P N : List CrawlTask,
      (processTask cfg t s).queue = P ++ s.queue ++ N ∧
      (∀ a ∈ P, a.url ∈ stepPrio cfg t s ∧ a.url ∉ s.seen) ∧
      (∀ a ∈ N, a.url ∈ stepNorm cfg t s ∧ a.url ∉ s.seen) := by
  unfold processTask
  split
  · exact ⟨[], [], by simp, by simp, by simp⟩
  · split
    · exact ⟨[], [], by simp [stRendered], by simp, by simp⟩
    · exact ⟨[], [], by simp [stRendered], by simp, by simp⟩
    · split
      · exact ⟨[], [], by simp [stEmitted, stRendered], by simp, by simp⟩
      · split
        · obtain ⟨P, N, h1, h2, h3⟩ := addLinks_decomp cfg
            (cfg.normalize t.url :: s.visited) t.depth
            (stepPrio cfg t s) (stepNorm cfg t s) s.queue s.seen
          exact ⟨P, N, h1, h2, h3⟩
        · exact ⟨[], [],
            by simp [stCounted, stEmitted, stRendered], by simp, by simp⟩

/-- Processing a task preserves queue/trace well-formedness. -/
theorem processTask_wf (cfg : CrawlConfig) (t : CrawlTask) (s : CrawlState)
    (h : WFQueue s) : WFQueue (processTask cfg t s) := by
  obtain ⟨h1, h2, h3, h4, h5⟩ := h
  unfold processTask
  split
  · exact ⟨h1, h2, h3, h4, h5⟩
  · split
    · exact ⟨h1, h2, h3, h4, h5⟩
    · exact ⟨h1, h2, h3, h4, h5⟩
    · split
      · exact ⟨h1, h2, h3, h4, h5⟩
      · split
        · have he : EnqWF s.dequeued ⟨s.queue, s.seen, 0⟩ := ⟨h1, h4, h3, h5⟩
          obtain ⟨g1, g2, g3, g4⟩ := addLinks_wf cfg
            (cfg.normalize t.url :: s.visited) t.depth
            (stepPrio cfg t s) (stepNorm cfg t s) s.queue s.seen s.dequeued he
          exact ⟨g1, h2, g3, g2, g4⟩
        · exact ⟨h1, h2, h3, h4, h5⟩

/-- Processing a task preserves the precedence invariant. -/
theorem precInv_processTask (cfg : CrawlConfig) (t : CrawlTask) (s : CrawlState)
    (p n : String) (h : PrecInv s p n) : PrecInv (processTask cfg t s) p n := by
  obtain ⟨hwf, hcase⟩ := h
  have hdeq := processTask_dequeued cfg t s
  refine ⟨processTask_wf cfg t s hwf, ?_⟩
  rcases hcase with ⟨h1, h2, h3⟩ | ⟨h1, h2⟩ | ⟨h1, h2⟩
  · obtain ⟨P, N, hq, _, _⟩ := processTask_queue_shape cfg t s
    refine Or.inl ⟨?_, ?_, ?_⟩
    · rw [hdeq]; exact h1
    · rw [hdeq]; exact h2
    · rw [hq]
      exact inQueueBefore_extend P N h3
  · exact Or.inr (Or.inl ⟨by rw [hdeq]; exact h1, by rw [hdeq]; exact h2⟩)
  · exact Or.inr (Or.inr ⟨by rw [hdeq]; exact h1, by rw [hdeq]; exact h2⟩)

/-- Shifting the head task off the queue preserves the precedence
invariant. -/
theorem precInv_dequeue {p n : String} (hpn : p ≠ n) (s : CrawlState)
    (t : CrawlTask) (rest : List CrawlTask) (hq : s.queue = t :: rest)
    (h : PrecInv s p n) :
    PrecInv { s with queue := rest, dequeued := s.dequeued ++ [t.url] } p n := by
  obtain ⟨⟨wf1, wf2, wf3, wf4, wf5⟩, hcase⟩ := h
  have htq : t.url ∈ s.queue.map (fun a => a.url) := by
    rw [hq, List.map_cons]
    exact List.mem_cons_self _ _
  have htd : t.url ∉ s.dequeued := wf3 _ htq
  have hts : t.url ∈ s.seen := wf4 _ htq
  have wfq : (s.queue.map (fun a => a.url)).Nodup := wf1
  rw [hq, List.map_cons] at wfq
  have hthead : t.url ∉ rest.map (fun a => a.url) := (List.nodup_cons.mp wfq).1
  have wfrest : (rest.map (fun a => a.url)).Nodup := (List.nodup_cons.mp wfq).2
  have hrest_sub : ∀ u ∈ rest.map (fun a => a.url),
      u ∈ s.queue.map (fun a => a.url) := by
    intro u hu
    rw [hq, List.map_cons]
    exact List.mem_cons_of_mem _ hu
  have hwf2 : WFQueue { s with queue := rest, dequeued := s.dequeued ++ [t.url] } := by
    refine ⟨wfrest, nodup_snoc wf2 htd, ?_, ?_, ?_⟩
    · intro u hu hmem
      rcases List.mem_append.mp hmem with hx | hx
      · exact wf3 u (hrest_sub u hu) hx
      · have he : u = t.url := by simpa using hx
        exact hthead (he ▸ hu)
    · intro u hu
      exact wf4 u (hrest_sub u hu)
    · intro u hu
      rcases List.mem_append.mp hu with hx | hx
      · exact wf5 u hx
      · have he : u = t.url := by simpa using hx
        rw [he]; exact hts
  refine ⟨hwf2, ?_⟩
  rcases hcase with ⟨h1, h2, h3⟩ | ⟨h1, h2⟩ | ⟨h1, h2⟩
  · obtain ⟨l1, l2, l3, heq⟩ := h3
    rw [hq, List.map_cons] at heq
    simp only [List.append_assoc, List.cons_append] at heq
    cases l1 with
    | nil =>
        simp only [List.nil_append] at heq
        injection heq with e1 e2
        have e1x : t.url = p := e1
        refine Or.inr (Or.inl ⟨?_, ?_⟩)
        · rw [← e1x]
          simp
        · intro hmem
          rcases List.mem_append.mp hmem with hx | hx
          · exact h2 hx
          · have he : n = t.url := by simpa using hx
            exact hpn (by rw [← e1x, ← he])
    | cons u l1t =>
        simp only [List.cons_append] at heq
        injection heq with e1 e2
        have e2x : rest.map (fun a => a.url) = l1t ++ p :: (l2 ++ n :: l3) := e2
        have hpmem : p ∈ rest.map (fun a => a.url) := by
          rw [e2x]; simp
        have hnmem : n ∈ rest.map (fun a => a.url) := by
          rw [e2x]; simp
        refine Or.inl ⟨?_, ?_, ?_⟩
        · intro hmem
          rcases List.mem_append.mp hmem with hx | hx
          · exact h1 hx
          · have he : p = t.url := by simpa using hx
            exact hthead (he ▸ hpmem)
        · intro hmem
          rcases List.mem_append.mp hmem with hx | hx
          · exact h2 hx
          · have he : n = t.url := by simpa using hx
            exact hthead (he ▸ hnmem)
        · refine ⟨l1t, l2, l3, ?_⟩
          have hfin : rest.map (fun a => a.url) = l1t ++ p :: l2 ++ n :: l3 := by
            rw [e2x]; simp
          exact hfin
  · by_cases ht : t.url = n
    · refine Or.inr (Or.inr ⟨?_, ?_⟩)
      · rw [ht]; simp
      · rw [ht]
        exact tracePrec_snoc_self h1 h2
    · refine Or.inr (Or.inl ⟨List.mem_append_left _ h1, ?_⟩)
      intro hmem
      rcases List.mem_append.mp hmem with hx | hx
      · exact h2 hx
      · have he : n = t.url := by simpa using hx
        exact ht he.symm
  · have htn : t.url ≠ n := fun e => htd (e ▸ h1)
    exact Or.inr (Or.inr ⟨List.mem_append_left _ h1, tracePrec_snoc h2 htn⟩)

/-- The crawl loop preserves the precedence invariant. -/
theorem precInv_loop (cfg : CrawlConfig) {p n : String} (hpn : p ≠ n) :
    ∀ (fuel : Nat) (s : CrawlState), PrecInv s p n →
      PrecInv (crawlLoop cfg fuel s) p n := by
  intro fuel
  induction fuel with
  | zero => intro s h; exact h
  | succ f ih =>
      intro s h
      rcases hq : s.queue with _ | ⟨t, rest⟩
      · rw [crawlLoop_nil cfg f hq]; exact h
      · rw [crawlLoop_cons cfg f hq]
        by_cases hb : s.pagesCrawled < cfg.maxPages
        · rw [if_pos hb]
          exact ih _ (precInv_processTask cfg t _ p n (precInv_dequeue hpn s t rest hq h))
        · rw [if_neg hb]; exact h

/-- The precedence invariant yields dequeue-trace precedence. -/
theorem precInv_tracePrec {s : CrawlState} {p n : String} (h : PrecInv s p n) :
    tracePrec s.dequeued p n := by
  rcases h.2 with ⟨_, h2, _⟩ | ⟨_, h2⟩ | ⟨_, h2⟩
  · exact tracePrec_of_not_mem h2
  · exact tracePrec_of_not_mem h2
  · exact h2

/-! ## Claim theorems -/

/-- Counterexample for C3 as stated: with `maxPages = 1`, a failing base
page and a succeeding forced page, the crawl performs 2 renders
(navigation attempts to distinct dequeued URLs) — failures are skipped
without being counted, so the number of renders exceeds `maxPages`. -/
theorem c3_renders_counterexample :
    c3cfg.maxPages = 1 ∧ (crawlRun c3cfg 5).renders = 2 ∧
    ¬((crawlRun c3cfg 5).renders ≤ c3cfg.maxPages) := by
  refine ⟨rfl, by decide, by decide⟩

/-- C3 (amended): the number of successfully crawled (persisted and
counted) pages never exceeds `maxPages`, for every crawl environment and
any amount of fuel; failed renders are skipped, not counted, and not
bounded by the page budget. -/
theorem c3_pages_within_budget (cfg : CrawlConfig) (fuel : Nat) :
    (crawlRun cfg fuel).pagesCrawled ≤ cfg.maxPages := by
  unfold crawlRun
  apply crawlLoop_pages_le
  rw [(initState_frame cfg).2.2.2.1]
  exact Nat.zero_le _

/-- C5: within a single crawl run the visited set never holds a
duplicate normalized URL, no normalized URL is navigated to twice, and
no page is emitted (pushed to `crawledPagesWithContent`) twice. -/
theorem c5_no_duplicate_renders (cfg : CrawlConfig) (fuel : Nat) :
    (crawlRun cfg fuel).visited.Nodup ∧
    (crawlRun cfg fuel).renderTrace.Nodup ∧
    (crawlRun cfg fuel).emitted.Nodup := by
  have hinit : Inv5 (initState cfg) := by
    obtain ⟨h1, h2, h3, _, _⟩ := initState_frame cfg
    refine ⟨?_, ?_, ?_, ?_⟩
    · rw [h1]; exact List.nodup_nil
    · rw [h2]; exact List.nodup_nil
    · rw [h2]; intro u hu; simp at hu
    · rw [h2, h3]
  have hfin := crawlLoop_inv5 cfg fuel (initState cfg) hinit
  exact ⟨hfin.1, hfin.2.1, (hfin.2.2.2).nodup hfin.2.1⟩

/-- C4: when the same page yields a priority-classified link `p`
(unshifted to the queue front) and a normal link `n` (pushed to the
back), and both are actually enqueued fresh, then in the rest of the
crawl `p` is dequeued strictly before `n` whenever `n` is dequeued at
all, for every crawl environment, well-formed state and fuel. -/
theorem c4_priority_dequeued_first (cfg : CrawlConfig) (t : CrawlTask)
    (s : CrawlState) (fuel : Nat) (p n : String)
    (hwf : WFQueue s)
    (_hp : p ∈ stepPrio cfg t s) (hpn : p ∉ stepNorm cfg t s)
    (hn : n ∈ stepNorm cfg t s) (hnp : n ∉ stepPrio cfg t s)
    (hpnew : p ∉ s.queue.map (fun a => a.url))
    (hnnew : n ∉ s.queue.map (fun a => a.url))
    (hpq : p ∈ (processTask cfg t s).queue.map (fun a => a.url))
    (hnq : n ∈ (processTask cfg t s).queue.map (fun a => a.url)) :
    tracePrec (crawlLoop cfg fuel (processTask cfg t s)).dequeued p n := by
  have hpne : p ≠ n := fun e => hpn (e ▸ hn)
  obtain ⟨P, N, hq, hP, hN⟩ := processTask_queue_shape cfg t s
  rw [hq, List.map_append, List.map_append] at hpq hnq
  have hpP : p ∈ P.map (fun a => a.url) := by
    rcases List.mem_append.mp hpq with h1 | h1
    · rcases List.mem_append.mp h1 with h2 | h2
      · exact h2
      · exact absurd h2 hpnew
    · obtain ⟨a, ha, hae⟩ := List.mem_map.mp h1
      exact absurd (hae ▸ (hN a ha).1) hpn
  have hnN : n ∈ N.map (fun a => a.url) := by
    rcases List.mem_append.mp hnq with h1 | h1
    · rcases List.mem_append.mp h1 with h2 | h2
      · obtain ⟨a, ha, hae⟩ := List.mem_map.mp h2
        exact absurd (hae ▸ (hP a ha).1) hnp
      · exact absurd h2 hnnew
    · exact h1
  have hwf5 : ∀ u ∈ s.dequeued, u ∈ s.seen := hwf.2.2.2.2
  have hpfresh : p ∉ s.seen := by
    obtain ⟨a, ha, hae⟩ := List.mem_map.mp hpP
    exact hae ▸ (hP a ha).2
  have hnfresh : n ∉ s.seen := by
    obtain ⟨a, ha, hae⟩ := List.mem_map.mp hnN
    exact hae ▸ (hN a ha).2
  have hpd : p ∉ s.dequeued := fun hx => hpfresh (hwf5 p hx)
  have hnd : n ∉ s.dequeued := fun hx => hnfresh (hwf5 n hx)
  obtain ⟨pl1, pl2, hPsplit⟩ := List.append_of_mem hpP
  obtain ⟨nl1, nl2, hNsplit⟩ := List.append_of_mem hnN
  have hbefore : inQueueBefore (processTask cfg t s).queue p n := by
    refine ⟨pl1, pl2 ++ s.queue.map (fun a => a.url) ++ nl1, nl2, ?_⟩
    rw [hq, List.map_append, List.map_append, hPsplit, hNsplit]
    simp
  have hinv : PrecInv (processTask cfg t s) p n := by
    refine ⟨processTask_wf cfg t s hwf, Or.inl ⟨?_, ?_, hbefore⟩⟩
    · rw [processTask_dequeued]; exact hpd
    · rw [processTask_dequeued]; exact hnd
  exact precInv_tracePrec (precInv_loop cfg hpne fuel _ hinv)

/-- Witness for C4 at a concrete crawl: the base page links `/kontakt`
(priority) and `/o-nas` (normal); the hypotheses hold by evaluation and
the contact page precedes the normal page in the dequeue trace. -/
theorem c4_priority_dequeued_first_witness :
    (WFQueue c4state ∧
     "https://ex.cz/kontakt" ∈ stepPrio c4cfg c4task c4state ∧
     "https://ex.cz/kontakt" ∉ stepNorm c4cfg c4task c4state ∧
     "https://ex.cz/o-nas" ∈ stepNorm c4cfg c4task c4state ∧
     "https://ex.cz/o-nas" ∉ stepPrio c4cfg c4task c4state ∧
     "https://ex.cz/kontakt" ∉ c4state.queue.map (fun a => a.url) ∧
     "https://ex.cz/o-nas" ∉ c4state.queue.map (fun a => a.url) ∧
     "https://ex.cz/kontakt" ∈
       (processTask c4cfg c4task c4state).queue.map (fun a => a.url) ∧
     "https://ex.cz/o-nas" ∈
       (processTask c4cfg c4task c4state).queue.map (fun a => a.url)) ∧
    tracePrec (crawlLoop c4cfg 8 (processTask c4cfg c4task c4state)).dequeued
      "https://ex.cz/kontakt" "https://ex.cz/o-nas" := by
  have hwf : WFQueue c4state := by
    unfold WFQueue
    decide
  have h1 : "https://ex.cz/kontakt" ∈ stepPrio c4cfg c4task c4state := by decide
  have h2 : "https://ex.cz/kontakt" ∉ stepNorm c4cfg c4task c4state := by decide
  have h3 : "https://ex.cz/o-nas" ∈ stepNorm c4cfg c4task c4state := by decide
  have h4 : "https://ex.cz/o-nas" ∉ stepPrio c4cfg c4task c4state := by decide
  have h5 : "https://ex.cz/kontakt" ∉ c4state.queue.map (fun a => a.url) := by decide
  have h6 : "https://ex.cz/o-nas" ∉ c4state.queue.map (fun a => a.url) := by decide
  have h7 : "https://ex.cz/kontakt" ∈
      (processTask c4cfg c4task c4state).queue.map (fun a => a.url) := by decide
  have h8 : "https://ex.cz/o-nas" ∈
      (processTask c4cfg c4task c4state).queue.map (fun a => a.url) := by decide
  exact ⟨⟨hwf, h1, h2, h3, h4, h5, h6, h7, h8⟩,
    c4_priority_dequeued_first c4cfg c4task c4state 8
      "https://ex.cz/kontakt" "https://ex.cz/o-nas"
      hwf h1 h2 h3 h4 h5 h6 h7 h8⟩

/-- `augmentLocation` never changes the address field. -/
theorem augmentLocation_address (entries : List (String × String))
    (provs : List String) (loc : LocationRecord) :
    (augmentLocation entries provs loc).address = loc.address := by
  simp only [augmentLocation]
  rcases h : entries.find? (fun e => strContains (jsToLower (loc.name.getD "")) e.2 ||
      strContains (jsToLower loc.address) e.2) with _ | v <;> simp [h]

/-- Taking the 5-cap preserves the head. -/
theorem head?_take_five {α : Type} (l : List α) : (l.take 5).head? = l.head? := by
  cases l <;> rfl

/-- Provider attribution preserves the head's address. -/
theorem mapBookingProviders_head_address (locs : List LocationRecord)
    (chunks : List Chunk) (provs : List String) (b : LocationRecord)
    (hb : locs.head? = some b) :
    ∃ rec, (mapBookingProvidersToLocations locs chunks provs).head? = some rec ∧
      rec.address = b.address := by
  unfold mapBookingProvidersToLocations
  by_cases hg : (provs.isEmpty || locs.isEmpty) = true
  · rw [if_pos hg]
    exact ⟨b, hb, rfl⟩
  · rw [if_neg hg]
    cases locs with
    | nil => simp at hb
    | cons x xs =>
        have hx : x = b := by simpa using hb
        refine ⟨augmentLocation (urlCityEntries chunks) provs x, rfl, ?_⟩
        rw [augmentLocation_address, hx]

/-- C10: the base location seeded from the extracted profile address
bypasses the junk-token/length filter applied to other candidates: if the
profile address fails `isProbablyAddress` (e.g. it contains a junk token
or exceeds 120 characters) but contains a digit and a recognized city
keyword, `detectLocationsFromChunks` still returns a location record with
exactly that (whitespace-normalized) address, at the head of the list. -/
theorem c10_profile_seed_bypasses_filter
    (addresses locationNames : List String) (chunks : List Chunk)
    (a0 : String) (providers : List String)
    (hch : chunks ≠ [])
    (ha : a0 ≠ "")
    (hfail : isProbablyAddress (normalizeAddress a0) = false)
    (hcity : (containsCityKeyword (normalizeAddress a0)).isSome = true)
    (hdig : hasDigit (normalizeAddress a0) = true) :
    ∃ rec,
      (detectLocationsFromChunks addresses locationNames chunks (some a0)
        providers).head? = some rec ∧
      rec.address = normalizeAddress a0 := by
  have hchE : chunks.isEmpty = false := by
    cases chunks with
    | nil => exact absurd rfl hch
    | cons x xs => rfl
  have hseed : seedBaseLocationFromProfile (some a0) providers =
      some ⟨some (inferredLocationName (normalizeAddress a0)),
        normalizeAddress a0, providers⟩ := by
    simp [seedBaseLocationFromProfile, orNull, ha, hfail, hcity, hdig]
  have hsel : (selectCanonicalPerCity (seedBaseLocationFromProfile (some a0) providers)
      (normalizeAndFilterLocations
        (buildRawLocations addresses locationNames (some a0)))).head? =
      some ⟨some (inferredLocationName (normalizeAddress a0)),
        normalizeAddress a0, providers⟩ := by
    rw [hseed]
    unfold selectCanonicalPerCity
    rw [head?_take_five]
    rfl
  obtain ⟨rec, hrec, haddr⟩ := mapBookingProviders_head_address
    (selectCanonicalPerCity (seedBaseLocationFromProfile (some a0) providers)
      (normalizeAndFilterLocations
        (buildRawLocations addresses locationNames (some a0))))
    chunks providers _ hsel
  refine ⟨rec, ?_, haddr⟩
  unfold detectLocationsFromChunks
  rw [hchE]
  simp only [Bool.false_eq_true, if_false]
  have hne : (mapBookingProvidersToLocations
      (selectCanonicalPerCity (seedBaseLocationFromProfile (some a0) providers)
        (normalizeAndFilterLocations
          (buildRawLocations addresses locationNames (some a0))))
      chunks providers).isEmpty = false := by
    rcases hlist : mapBookingProvidersToLocations
        (selectCanonicalPerCity (seedBaseLocationFromProfile (some a0) providers)
          (normalizeAndFilterLocations
            (buildRawLocations addresses locationNames (some a0))))
        chunks providers with _ | ⟨y, ys⟩
    · rw [hlist] at hrec
      simp at hrec
    · rfl
  rw [hne]
  simpa using hrec

/-- Witness for C10: the profile address `"Dlouhá 5, Praha, od 100 kč"`
contains the junk token "kč" (so it fails `isProbablyAddress`), yet has a
digit and the city keyword "praha", and is returned verbatim. -/
theorem c10_profile_seed_bypasses_filter_witness :
    (strContains (jsToLower "Dlouhá 5, Praha, od 100 kč") "kč" = true) ∧
    (isProbablyAddress (normalizeAddress "Dlouhá 5, Praha, od 100 kč") = false) ∧
    (∃ rec,
      (detectLocationsFromChunks [] [] [⟨"uvod text", "https://ex.cz/", "Úvod"⟩]
        (some "Dlouhá 5, Praha, od 100 kč") ["fresha"]).head? = some rec ∧
      rec.address = normalizeAddress "Dlouhá 5, Praha, od 100 kč") := by
  refine ⟨by decide, by decide, ?_⟩
  exact c10_profile_seed_bypasses_filter [] [] [⟨"uvod text", "https://ex.cz/", "Úvod"⟩]
    "Dlouhá 5, Praha, od 100 kč" ["fresha"]
    (by decide) (by decide) (by decide) (by decide) (by decide)

/-- C9: a service whose slug matches a pre-existing stored service marked
bookable keeps `is_bookable = true` after the re-import upsert, even when
other fields (e.g. the description) change: the payload reads the flag
from the stored row before upserting.  `hnd` is the database uniqueness
of `(business_id, slug)`. -/
theorem c9_bookable_preserved (st : DbState) (d : ImportedData) (slg : String)
    (hnd : (st.services.map slugKey).Nodup)
    (hex : ∃ e ∈ st.services, e.slug = slg ∧ e.is_bookable = true)
    (him : ∃ p ∈ rawServices st.services d.services, p.slug = slg) :
    (∃ x ∈ (applyImportedBusinessData st d).services, x.slug = slg) ∧
    ∀ x ∈ (applyImportedBusinessData st d).services, x.slug = slg →
      x.is_bookable = true := by
  obtain ⟨e, he, hes, heb⟩ := hex
  obtain ⟨p0, hp0, hp0s⟩ := him
  have hdne : d.services.isEmpty = false := by
    rcases hd : d.services with _ | ⟨s, ss⟩
    · rw [hd] at hp0
      simp [rawServices] at hp0
    · simp [hd]
  have hbook : bookFor st.services slg = true := by
    have hl : lookupLastBySlug st.services e.slug = some e := lookupLast_nodup hnd he
    rw [hes] at hl
    unfold bookFor
    rw [hl]
    exact heb
  have hraw : ∀ q ∈ rawServices st.services d.services, q.slug = slg →
      q.is_bookable = true := by
    intro q hq hqs
    rw [rawServices_bookable q hq, hqs]
    exact hbook
  obtain ⟨x, hxP, hxs⟩ := dedup_complete hp0
  have hxslg : x.slug = slg := by rw [hxs, hp0s]
  have hxb : x.is_bookable = true := hraw x (dedup_sub hxP) hxslg
  have hkey : KeyedAll slugKey (upsertAllBy slugKey st.services
      (dedupBySlug (rawServices st.services d.services))) x :=
    keyedAll_upsertAllBy slugKey (dedup_keys_nodup _) hxP st.services
  have hsvc : (applyImportedBusinessData st d).services =
      upsertAllBy slugKey st.services
        (dedupBySlug (rawServices st.services d.services)) := by
    simp [applyImported_services, hdne]
  rw [hsvc]
  constructor
  · obtain ⟨y, hy, hys⟩ := hkey.1
    refine ⟨y, hy, ?_⟩
    have hys' : y.slug = x.slug := hys
    rw [hys', hxslg]
  · intro z hz hzs
    have hzx : z = x := hkey.2 z hz (show slugKey z = slugKey x from by
      show z.slug = x.slug
      rw [hzs, hxslg])
    rw [hzx]
    exact hxb

/-- Witness for C9: the stored bookable service "Střih" (slug `strih`),
re-imported with a changed description and no duration, stays bookable. -/
theorem c9_bookable_preserved_witness :
    ((exStoredState.services.map slugKey).Nodup) ∧
    (∃ e ∈ exStoredState.services, e.slug = "strih" ∧ e.is_bookable = true) ∧
    (∃ p ∈ rawServices exStoredState.services exReimportData.services,
      p.slug = "strih") ∧
    ((∃ x ∈ (applyImportedBusinessData exStoredState exReimportData).services,
        x.slug = "strih") ∧
      ∀ x ∈ (applyImportedBusinessData exStoredState exReimportData).services,
        x.slug = "strih" → x.is_bookable = true) := by
  refine ⟨by decide, by decide, by decide, ?_⟩
  exact c9_bookable_preserved exStoredState exReimportData "strih"
    (by decide) (by decide) (by decide)

/-- An empty new value never overwrites in `coalesce`. -/
theorem coalesce_of_empty {v : Option String} (h : newEmptyVal v)
    (e : Option String) : coalesce v e = e := by
  cases v with
  | none => rfl
  | some s =>
      have hs : jsTrim s = "" := h
      simp [coalesce, hs]

/-- A null/empty imported name leaves the profile name untouched (for a
stored name that is not the empty string). -/
theorem nameToSave_of_none {im e : Option String} (him : orNull im = none)
    (he : ∀ v, e = some v → v ≠ "") (w : Option String) :
    nameToSave w im e = e := by
  have hOE : orNull e = e := by
    cases e with
    | none => rfl
    | some v => simp [orNull, he v rfl]
  unfold nameToSave
  rcases hw : orNull w with _ | wv
  · rw [him, hOE]
    rfl
  · rw [him, hOE]
    rfl

/-- A null/empty imported name leaves `businesses.name` untouched. -/
theorem applyBusinessName_of_none {dn : Option String} (h : orNull dn = none)
    (w b : Option String) : applyBusinessName w dn b = b := by
  cases dn with
  | none => rfl
  | some s =>
      have hs : s = "" := by
        by_cases hx : s = ""
        · exact hx
        · simp [orNull, hx] at h
      subst hs
      show applyBusinessNameCore w (jsTrim "") b = b
      simp [jsTrim, trimChars, applyBusinessNameCore]

/-- C1 (amended): for each profile field (name, address, phone, email,
website) persisted by the reconciler, a null-or-empty imported value
leaves the stored value unchanged.  (The original claim extends this to
service fields, which the code does not coalesce — see the
counterexample.) -/
theorem c1_profile_coalesce (st : DbState) (d : ImportedData) :
    ∃ pr, (applyImportedBusinessData st d).profile = some pr ∧
      (orNull d.profile.name = none →
        ((∀ v, st.profile.bind (fun x => x.name) = some v → v ≠ "") →
          pr.name = st.profile.bind (fun x => x.name)) ∧
        (applyImportedBusinessData st d).businessName = st.businessName) ∧
      (newEmptyVal d.profile.address →
        pr.address = st.profile.bind (fun x => x.address)) ∧
      (newEmptyVal d.profile.phone →
        pr.phone = st.profile.bind (fun x => x.phone)) ∧
      (newEmptyVal d.profile.email →
        pr.email = st.profile.bind (fun x => x.email)) ∧
      (newEmptyVal d.profile.website →
        pr.website_url = st.profile.bind (fun x => x.website_url)) := by
  refine ⟨_, applyImported_profile st d, ?_, ?_, ?_, ?_, ?_⟩
  · intro hname
    constructor
    · intro hv
      exact nameToSave_of_none hname hv d.profile.website
    · rw [applyImported_businessName]
      exact applyBusinessName_of_none hname _ _
  · intro h
    exact coalesce_of_empty h _
  · intro h
    exact coalesce_of_empty h _
  · intro h
    exact coalesce_of_empty h _
  · intro h
    exact coalesce_of_empty h _

/-- Witness for C1's amended profile part: an import with all profile
fields null leaves every stored profile field and the business name
unchanged. -/
theorem c1_profile_coalesce_witness :
    ∃ pr, (applyImportedBusinessData exStoredState exReimportData).profile = some pr ∧
      pr.name = some "Salon U Nás" ∧ pr.address = some "Dlouhá 5, Praha" ∧
      pr.phone = some "+420608744774" ∧ pr.email = some "info@unas.cz" ∧
      pr.website_url = some "https://unas.cz" ∧
      (applyImportedBusinessData exStoredState exReimportData).businessName =
        some "Salon U Nás" := by
  obtain ⟨pr, hpr, hname, haddr, hphone, hemail, hweb⟩ :=
    c1_profile_coalesce exStoredState exReimportData
  obtain ⟨hn, hbn⟩ := hname (by decide)
  refine ⟨pr, hpr, ?_, ?_, ?_, ?_, ?_, ?_⟩
  · rw [hn (by decide)]; decide
  · rw [haddr (by decide)]; decide
  · rw [hphone (by decide)]; decide
  · rw [hemail (by decide)]; decide
  · rw [hweb (by decide)]; decide
  · rw [hbn]; decide

/-- Counterexample for C1 as stated: service fields are **not**
coalesced.  The stored service `strih` has a non-null description and
duration; the re-import carries null description/duration; after the
upsert both columns are null — the upsert overwrote non-empty values with
null, contradicting the claim's "every service field" clause. -/
theorem c1_service_fields_counterexample :
    ∃ e ∈ exStoredState.services,
      ∃ x ∈ (applyImportedBusinessData exStoredState exReimportData).services,
        e.slug = x.slug ∧ e.description = some "Starý popis" ∧ x.description = none ∧
        e.duration_minutes = some 30 ∧ x.duration_minutes = none := by
  decide

/-- C6: reconciliation is idempotent — applying the same imported data
twice against the same starting stored state equals applying it once.
`hwk` is the pipeline invariant that the valid opening-hours entries
carry distinct weekdays (they are built by iterating the seven-day map,
and the Postgres upsert would reject duplicate conflict keys in one
payload). -/
theorem c6_reconcile_idempotent (st : DbState) (d : ImportedData)
    (hwk : ((validHours d.openingHours).map (fun oh => oh.weekday)).Nodup) :
    applyImportedBusinessData (applyImportedBusinessData st d) d =
      applyImportedBusinessData st d := by
  apply dbStateExt
  · -- businesses.name
    rw [applyImported_businessName (applyImportedBusinessData st d) d,
      applyImported_businessName st d]
    exact applyBusinessName_idem _ _ _
  · -- business_profile row
    rw [applyImported_profile (applyImportedBusinessData st d) d,
      applyImported_profile st d]
    simp only [applyImported_profile st d, Option.some_bind]
    rw [nameToSave_idem d.profile.website d.profile.name
        (st.profile.bind (fun x => x.name)),
      coalesce_idem d.profile.address (st.profile.bind (fun x => x.address)),
      coalesce_idem d.profile.phone (st.profile.bind (fun x => x.phone)),
      coalesce_idem d.profile.email (st.profile.bind (fun x => x.email)),
      coalesce_idem d.profile.website (st.profile.bind (fun x => x.website_url))]
  · -- services
    by_cases hemp : d.services.isEmpty = true
    · simp [applyImported_services, hemp]
    · have hemp' : d.services.isEmpty = false := Bool.eq_false_iff.mpr hemp
      have hsvc1 : (applyImportedBusinessData st d).services =
          upsertAllBy slugKey st.services
            (dedupBySlug (rawServices st.services d.services)) := by
        simp [applyImported_services, hemp']
      have hraw : rawServices (applyImportedBusinessData st d).services d.services =
          rawServices st.services d.services := by
        unfold rawServices
        apply List.map_congr_left
        intro p hp
        have hb : bookFor (applyImportedBusinessData st d).services
            (serviceSlug p.1 p.2) = bookFor st.services (serviceSlug p.1 p.2) := by
          have hr0 : rawServiceRow (bookFor st.services) p.1 p.2 ∈
              rawServices st.services d.services :=
            List.mem_map.mpr ⟨p, hp, rfl⟩
          obtain ⟨x, hxP, hxs⟩ := dedup_complete hr0
          have hxs' : x.slug = serviceSlug p.1 p.2 := hxs
          have hk : KeyedAll slugKey (upsertAllBy slugKey st.services
              (dedupBySlug (rawServices st.services d.services))) x :=
            keyedAll_upsertAllBy slugKey (dedup_keys_nodup _) hxP st.services
          have hlook := lookupLast_of_keyedAll hk
          rw [hsvc1, ← hxs']
          unfold bookFor
          rw [hlook]
          exact rawServices_bookable x (dedup_sub hxP)
        show rawServiceRow (bookFor (applyImportedBusinessData st d).services) p.1 p.2 =
          rawServiceRow (bookFor st.services) p.1 p.2
        unfold rawServiceRow
        rw [hb]
      have hraw2 : rawServices (upsertAllBy slugKey st.services
            (dedupBySlug (rawServices st.services d.services))) d.services =
          rawServices st.services d.services := by
        rw [← hsvc1]
        exact hraw
      rw [applyImported_services (applyImportedBusinessData st d) d,
        applyImported_services st d]
      simp only [hemp', Bool.false_eq_true, if_false]
      rw [hraw2]
      exact upsertAllBy_idem slugKey st.services _ (dedup_keys_nodup _)
  · -- opening hours
    by_cases hemp : (validHours d.openingHours).isEmpty = true
    · simp [applyImported_hours, hemp]
    · have hemp' : (validHours d.openingHours).isEmpty = false :=
        Bool.eq_false_iff.mpr hemp
      rw [applyImported_hours (applyImportedBusinessData st d) d,
        applyImported_hours st d]
      simp only [hemp', Bool.false_eq_true, if_false]
      apply upsertAllBy_idem
      have hmap : (hourPayload (validHours d.openingHours)).map hourKey =
          (validHours d.openingHours).map (fun oh => oh.weekday) := by
        simp [hourPayload, hourKey, List.map_map, Function.comp]
      rw [hmap]
      exact hwk

/-- Witness for C6: a full concrete import (profile, one service, one
weekday) applied twice to the concrete stored state equals applying it
once. -/
theorem c6_reconcile_idempotent_witness :
    (((validHours exFullImport.openingHours).map (fun oh => oh.weekday)).Nodup) ∧
    applyImportedBusinessData (applyImportedBusinessData exStoredState exFullImport)
        exFullImport =
      applyImportedBusinessData exStoredState exFullImport := by
  refine ⟨by decide, ?_⟩
  exact c6_reconcile_idempotent exStoredState exFullImport (by decide)

/-- C2: the claim (and the code's own comment, line 747: "Prefer JSON-LD
> pre-extracted heuristics > LLM extraction") says structured-data hours
take precedence over heuristic regex hours.  The code applies the
heuristic override *after* the JSON-LD override, so whenever the
heuristic found anything it wins: with JSON-LD Monday 09:00–17:00 (one
valid day) and heuristic Monday 10:00–18:00, the final array carries the
heuristic times, not the JSON-LD times. -/
theorem c2_heuristic_overrides_jsonld :
    0 < jsonLdValidDays c2jsonldHours ∧
    c2jsonldHours "mon" = some ⟨"09:00", "17:00"⟩ ∧
    finalOpeningHoursArray c2llmHours c2jsonldHours (some c2heurHours) false
        (fun _ => none) =
      [⟨"mon", some "10:00", some "18:00", false⟩] := by
  refine ⟨by decide, by decide, by decide⟩

/-- C7: on a page whose text mentions both "Praha" and "Brno", if no
address candidate reaches the high-confidence threshold (score 30), the
extracted address is the literal two-city summary "Praha a Brno" rather
than any single candidate. -/
theorem c7_multi_city_summary (textOnly : String) (ms : List AddrMatch)
    (hPraha : strContains (normalizeForMatch textOnly) "praha" = true)
    (hBrno : strContains (normalizeForMatch textOnly) "brno" = true)
    (hWeak : ∀ c ∈ mkAddrCandidates ms, c.score < 30) :
    extractAddressFromDom textOnly ms = some "Praha a Brno" := by
  unfold extractAddressFromDom
  have hMulti : (strContains (normalizeForMatch textOnly) "praha" &&
      strContains (normalizeForMatch textOnly) "brno") = true := by
    rw [hPraha, hBrno]; rfl
  rcases hhead : (sortByScoreDesc (mkAddrCandidates ms)).head? with _ | p
  · simp [hhead, hMulti]
  · have hpmem : p ∈ sortByScoreDesc (mkAddrCandidates ms) := by
      exact List.mem_of_mem_head? hhead
    have hlt : p.score < 30 := hWeak p (mem_of_mem_sortByScoreDesc hpmem)
    have hnot : decide (30 ≤ p.score) = false := by
      simp [decide_eq_false_iff_not]
      omega
    simp [hhead, hMulti, hnot]

/-- Witness for C7: a concrete page text mentioning both cities, with a
single candidate whose context is legal/billing boilerplate (score −50). -/
theorem c7_multi_city_summary_witness :
    (strContains (normalizeForMatch "Salony: Praha a také Brno") "praha" = true) ∧
    (strContains (normalizeForMatch "Salony: Praha a také Brno") "brno" = true) ∧
    (∀ c ∈ mkAddrCandidates [⟨"Vodičkova 12, Praha", "ičo 123 Vodičkova 12, Praha"⟩],
      c.score < 30) ∧
    extractAddressFromDom "Salony: Praha a také Brno"
      [⟨"Vodičkova 12, Praha", "ičo 123 Vodičkova 12, Praha"⟩] = some "Praha a Brno" := by
  refine ⟨by decide, by decide, by decide, ?_⟩
  exact c7_multi_city_summary _ _ (by decide) (by decide) (by decide)

/-- C8: phone extraction normalizes both the bare 9-digit Czech local
format and the country-code formats to the single E.164 form
`+420608744774`; in particular the candidate extracted from a text
containing `608 744 774` coincides with an existing stored profile phone
`+420608744774`, so no distinct duplicate value arises. -/
theorem c8_phone_normalization_e164 :
    normalizePhoneToE164 "608 744 774" = some "+420608744774" ∧
    normalizePhoneToE164 "608744774" = some "+420608744774" ∧
    normalizePhoneToE164 "+420 608 744 774" = some "+420608744774" ∧
    normalizePhoneToE164 "+420608744774" = some "+420608744774" ∧
    normalizePhoneToE164 "420 608 744 774" = some "+420608744774" := by
  refine ⟨?_, ?_, ?_, ?_, ?_⟩ <;> decide

end Iva
